import Mathlib

/-!
# ircdiscord: the name registry of `internal/names/map.go`

A shallow embedding of the identifier/name registry and its mangler, and of the address
computation of the two listeners of `main.go`, followed by theorems about them.

Modelling choices.

* A Go `string` is a sequence of bytes; it is embedded as `GoString = List Char`, one
  `Char` per byte.  The only byte the code inspects is the separator `'#'`.
* The snowflake identifier types (`discord.UserID`, `discord.GuildID`,
  `discord.ChannelID`) are unsigned 64-bit integers; they are embedded as `Nat`.  The
  conversion `int64(id)` is `int64` below.
* A Go `map[K]V` is a finite table.  It is embedded as `GoMap`, an association list with
  the three operations the code uses: the two-valued read `v, ok := m[k]`, the store
  `m[k] = v` and `delete(m, k)`.
* The registry is mutated in place in Go; here every update returns the new registry.
* A Go panic, and a loop that has not ended when its fuel is used up, is the result `none`.
-/

namespace Names

/-- A Go string: its bytes in order. -/
abbrev GoString := List Char

/-! ## Go maps -/

/-- A Go map value: a finite list of key/value entries, at most one per key once built
with `store`. -/
structure GoMap (κ : Type) (ν : Type) where
  entries : List (κ × ν)
deriving DecidableEq, Repr

namespace GoMap

variable {κ ν : Type} [DecidableEq κ]

/-- The result of `make(map[K]V)`. -/
def empty : GoMap κ ν := ⟨[]⟩

/-- Read of the first entry with key `k` in a list of entries. -/
def lookupEntries : List (κ × ν) → κ → Option ν
  | [], _ => none
  | e :: rest, k => if e.1 = k then some e.2 else lookupEntries rest k

/-- The two-valued read `v, ok := m[k]`: `some v` when `ok`, `none` otherwise. -/
def lookup (m : GoMap κ ν) (k : κ) : Option ν := lookupEntries m.entries k

/-- The test `_, ok := m[k]`. -/
def contains (m : GoMap κ ν) (k : κ) : Bool := (m.lookup k).isSome

/-- The builtin `delete(m, k)`. -/
def delete (m : GoMap κ ν) (k : κ) : GoMap κ ν :=
  ⟨m.entries.filter (fun e => !decide (e.1 = k))⟩

/-- The assignment `m[k] = v`. -/
def store (m : GoMap κ ν) (k : κ) (v : ν) : GoMap κ ν :=
  ⟨(k, v) :: m.entries.filter (fun e => !decide (e.1 = k))⟩

/-- The builtin `len(m)` (for a map built with `store`). -/
def len (m : GoMap κ ν) : Nat := m.entries.length

/-- How many entries of a table keyed by names have a key of at least `n` bytes: the measure
that decreases along the retry loop. -/
def longKeys (back : List (List Char × ν)) (n : Nat) : Nat :=
  back.countP (fun e => decide (n ≤ e.1.length))

end GoMap

/-! ## The mangler -/

/-- The conversion `int64(id)` of an unsigned 64-bit identifier. -/
def int64 (u : Nat) : Int :=
  if u % 2 ^ 64 < 2 ^ 63 then ((u % 2 ^ 64 : Nat) : Int) else ((u % 2 ^ 64 : Nat) : Int) - 2 ^ 64

/-- The library call `strconv.FormatInt(id, 10)`: the decimal digits, after a minus sign for
a negative number. -/
def FormatInt (i : Int) : GoString :=
  if i < 0 then '-' :: Nat.toDigits 10 i.natAbs else Nat.toDigits 10 i.toNat

/-- The library call `strings.IndexRune(name, r)` for a one-byte rune: the index of the first
occurrence, `none` where Go returns `-1`. -/
def IndexRune : GoString → Char → Option Nat
  | [], _ => none
  | c :: cs, r => if c = r then some 0 else (IndexRune cs r).map (· + 1)

/-- The slice expression `s[:hi]`, which panics (`none`) when `hi` exceeds `len(s)`. -/
def sliceTo (s : GoString) (hi : Nat) : Option GoString :=
  if hi ≤ s.length then some (s.take hi) else none

/-- The loop `for len(idstr) < newlen { idstr += "#" }`. -/
def padSeparators (idstr : GoString) (newlen : Nat) : GoString :=
  idstr ++ List.replicate (newlen - idstr.length) '#'

/-- The function `sanitize`: `strings.ReplaceAll(name, "#", "")`. -/
def sanitize (name : GoString) : GoString := name.filter (fun c => decide (c ≠ '#'))

/-- The function `mangle`.  `none` stands for an index-out-of-range panic. -/
def mangle (name : GoString) (id : Int) : Option GoString :=
  let idstr := FormatInt id
  match IndexRune name '#' with
  | some i =>
    let newlen := name.length - i
    let idstr := padSeparators idstr newlen
    match sliceTo name i, sliceTo idstr newlen with
    | some pre, some suf => some (pre ++ '#' :: suf)
    | _, _ => none
  | none =>
    match idstr with
    | c :: _ => some (name ++ ['#', c])
    | [] => none

/-- The function `demangle`. -/
def demangle (name : GoString) : GoString :=
  match IndexRune name '#' with
  | some i => name.take i
  | none => name

/-! ## The registry -/

/-- The struct `Map`. -/
structure Map where
  userf : GoMap Nat GoString
  userb : GoMap GoString Nat
  nicksf : GoMap Nat (GoMap Nat GoString)
  nicksb : GoMap Nat (GoMap GoString Nat)
  chansf : GoMap Nat (GoMap Nat GoString)
  chansb : GoMap Nat (GoMap GoString Nat)
deriving DecidableEq, Repr

/-- The function `NewMap`. -/
def NewMap : Map :=
  { userf := GoMap.empty, userb := GoMap.empty,
    nicksf := GoMap.empty, nicksb := GoMap.empty,
    chansf := GoMap.empty, chansb := GoMap.empty }

/-! The method `Valid` of the snowflake types belongs to the discord library the package imports,
not to the package.  Every function that calls it takes it as the parameter `valid`; the theorems
hold for every such predicate, and say so when they need it to reject zero. -/

/-- The method `userName`; `none` is the panic on an invalid `userID`. -/
def userName (valid : Nat → Bool) (m : Map) (userID : Nat) : Option GoString :=
  if !valid userID then none
  else some ((m.userf.lookup userID).getD [])

/-- The method `UserName`. -/
def UserName (valid : Nat → Bool) (m : Map) (userID : Nat) : Option GoString :=
  userName valid m userID

/-- The method `UserID`; `none` is the panic on an empty name. -/
def UserID (m : Map) (name : GoString) : Option Nat :=
  if name = [] then none
  else some ((m.userb.lookup name).getD 0)

/-- The method `nickName`; `none` is a panic. -/
def nickName (valid : Nat → Bool) (m : Map) (guildID userID : Nat) : Option GoString :=
  if !valid guildID && guildID != 0 then none
  else if !valid userID then none
  else
    match m.nicksf.lookup guildID with
    | none => some []
    | some nickmap => some ((nickmap.lookup userID).getD [])

/-- The method `NickName`. -/
def NickName (valid : Nat → Bool) (m : Map) (guildID userID : Nat) : Option GoString :=
  nickName valid m guildID userID

/-- The method `NickID`; `none` is a panic. -/
def NickID (valid : Nat → Bool) (m : Map) (guildID : Nat) (nick : GoString) : Option Nat :=
  if !valid guildID && guildID != 0 then none
  else if nick = [] then none
  else
    match m.nicksb.lookup guildID with
    | none => some 0
    | some nickmap => some ((nickmap.lookup nick).getD 0)

/-- The method `ChannelName`; `none` is a panic. -/
def ChannelName (valid : Nat → Bool) (m : Map) (guildID channelID : Nat) : Option GoString :=
  if !valid guildID && guildID != 0 then none
  else if !valid channelID then none
  else
    match m.chansf.lookup guildID with
    | none => some []
    | some chanmap => some ((chanmap.lookup channelID).getD [])

/-- The method `ChannelID`; `none` is a panic. -/
def ChannelID (valid : Nat → Bool) (m : Map) (guildID : Nat) (channel : GoString) :
    Option Nat :=
  if !valid guildID && guildID != 0 then none
  else if channel = [] then none
  else
    match m.chansb.lookup guildID with
    | none => some 0
    | some chanmap => some ((chanmap.lookup channel).getD 0)

/-- The retry loop shared, word for word, by `updateUser`, `updateNickMaps` and
`updateChannelMaps`:
`for { _, ok := back[newName]; if !ok { break }; newName = mangle(newName, id) }`.
The first argument is fuel: one unit per test of the loop condition.  `none` means the fuel
ran out before the loop reached `break`, or `mangle` panicked. -/
def collisionLoop (back : GoMap GoString Nat) (id : Int) : Nat → GoString → Option GoString
  | 0, _ => none
  | fuel + 1, newName =>
    if back.contains newName then
      match mangle newName id with
      | some next => collisionLoop back id fuel next
      | none => none
    else some newName

/-- The method `updateUser`: `(before, current)` and the registry after the call.  The loop is
run with one unit of fuel more than the backward map has entries. -/
def updateUser (m : Map) (userID : Nat) (ideal : GoString) :
    Option (GoString × GoString × Map) :=
  let entry := m.userf.lookup userID
  let currentName := entry.getD []
  let ok := entry.isSome
  if ok && decide (demangle currentName = ideal) then some (currentName, currentName, m)
  else
    match collisionLoop m.userb (int64 userID) (m.userb.len + 1) ideal with
    | none => none
    | some newName =>
      let userf := m.userf.store userID newName
      let userb := m.userb.store newName userID
      let userb := if ok then userb.delete currentName else userb
      some (currentName, newName, { m with userf := userf, userb := userb })

/-- The method `UpdateUser`. -/
def UpdateUser (m : Map) (userID : Nat) (ideal : GoString) :
    Option (GoString × GoString × Map) :=
  updateUser m userID ideal

/-- The method `updateNickMaps`.  Go passes the two maps of the scope by reference; here they
are passed by value and the function returns them, after `(before, current)` and before the
registry, whose `userb` the last statement of the function deletes from. -/
def updateNickMaps (m : Map) (nicksf : GoMap Nat GoString) (nicksb : GoMap GoString Nat)
    (userID : Nat) (ideal : GoString) (onlyIfNotPresent : Bool) :
    Option (GoString × GoString × GoMap Nat GoString × GoMap GoString Nat × Map) :=
  let entry := nicksf.lookup userID
  let currentName := entry.getD []
  let present := entry.isSome
  if (present && onlyIfNotPresent) || (present && decide (demangle currentName = ideal)) then
    some (currentName, currentName, nicksf, nicksb, m)
  else
    match collisionLoop nicksb (int64 userID) (nicksb.len + 1) ideal with
    | none => none
    | some newName =>
      let nicksf := nicksf.store userID newName
      let nicksb := nicksb.store newName userID
      let m := if present then { m with userb := m.userb.delete currentName } else m
      some (currentName, newName, nicksf, nicksb, m)

/-- The method `updateNick`: the two maps of the scope are created when missing, handed to
`updateNickMaps`, and what it did to them is what the scope holds afterwards. -/
def updateNick (m : Map) (guildID userID : Nat) (ideal : GoString) (onlyIfNotPresent : Bool) :
    Option (GoString × GoString × Map) :=
  let m := if (m.nicksf.lookup guildID).isNone then
      { m with nicksf := m.nicksf.store guildID GoMap.empty } else m
  let m := if (m.nicksb.lookup guildID).isNone then
      { m with nicksb := m.nicksb.store guildID GoMap.empty } else m
  match updateNickMaps m ((m.nicksf.lookup guildID).getD GoMap.empty)
      ((m.nicksb.lookup guildID).getD GoMap.empty) userID ideal onlyIfNotPresent with
  | none => none
  | some (before, current, nicksf, nicksb, m) =>
    some (before, current,
      { m with nicksf := m.nicksf.store guildID nicksf, nicksb := m.nicksb.store guildID nicksb })

/-- The method `UpdateNick`. -/
def UpdateNick (m : Map) (guildID userID : Nat) (ideal : GoString) :
    Option (GoString × GoString × Map) :=
  updateNick m guildID userID ideal false

/-- The method `updateNickFromUserIfNotPresent`. -/
def updateNickFromUserIfNotPresent (valid : Nat → Bool) (m : Map) (guildID userID : Nat) :
    Option (GoString × GoString × Map) :=
  match userName valid m userID with
  | none => none
  | some ideal => updateNick m guildID userID ideal true

/-- The method `NickNameWithUserNameFallback`. -/
def NickNameWithUserNameFallback (valid : Nat → Bool) (m : Map) (guildID userID : Nat) :
    Option (GoString × GoString × Map) :=
  updateNickFromUserIfNotPresent valid m guildID userID

/-- The method `updateChannelMaps`, with the maps of the scope passed and returned as in
`updateNickMaps`. -/
def updateChannelMaps (m : Map) (chansf : GoMap Nat GoString) (chansb : GoMap GoString Nat)
    (channelID : Nat) (ideal : GoString) :
    Option (GoString × GoString × GoMap Nat GoString × GoMap GoString Nat × Map) :=
  let entry := chansf.lookup channelID
  let currentName := entry.getD []
  let ok := entry.isSome
  if ok && decide (demangle currentName = ideal) then
    some (currentName, currentName, chansf, chansb, m)
  else
    match collisionLoop chansb (int64 channelID) (chansb.len + 1) ideal with
    | none => none
    | some newName =>
      let chansf := chansf.store channelID newName
      let chansb := chansb.store newName channelID
      let m := if ok then { m with userb := m.userb.delete currentName } else m
      some (currentName, newName, chansf, chansb, m)

/-- The method `updateChannel`. -/
def updateChannel (m : Map) (guildID channelID : Nat) (ideal : GoString) :
    Option (GoString × GoString × Map) :=
  let m := if (m.chansf.lookup guildID).isNone then
      { m with chansf := m.chansf.store guildID GoMap.empty } else m
  let m := if (m.chansb.lookup guildID).isNone then
      { m with chansb := m.chansb.store guildID GoMap.empty } else m
  match updateChannelMaps m ((m.chansf.lookup guildID).getD GoMap.empty)
      ((m.chansb.lookup guildID).getD GoMap.empty) channelID ideal with
  | none => none
  | some (before, current, chansf, chansb, m) =>
    some (before, current,
      { m with chansf := m.chansf.store guildID chansf, chansb := m.chansb.store guildID chansb })

/-- The method `UpdateChannel`. -/
def UpdateChannel (m : Map) (guildID channelID : Nat) (ideal : GoString) :
    Option (GoString × GoString × Map) :=
  updateChannel m guildID channelID ideal

/-- One call of an exported update method, with its arguments. -/
inductive Call where
  | updateUser (userID : Nat) (ideal : GoString)
  | updateNick (guildID userID : Nat) (ideal : GoString)
  | updateChannel (guildID channelID : Nat) (ideal : GoString)
  | nickNameWithUserNameFallback (guildID userID : Nat)
deriving DecidableEq, Repr

/-- The result of one call on the registry `m`. -/
def Call.run (valid : Nat → Bool) (m : Map) : Call → Option (GoString × GoString × Map)
  | .updateUser userID ideal => UpdateUser m userID ideal
  | .updateNick guildID userID ideal => UpdateNick m guildID userID ideal
  | .updateChannel guildID channelID ideal => UpdateChannel m guildID channelID ideal
  | .nickNameWithUserNameFallback guildID userID =>
    NickNameWithUserNameFallback valid m guildID userID

/-- The registry after a sequence of calls, each of which returned. -/
def runCalls (valid : Nat → Bool) (m : Map) : List Call → Option Map
  | [] => some m
  | c :: cs =>
    match c.run valid m with
    | none => none
    | some r => runCalls valid r.2.2 cs

/-- The registry states a client can produce: `NewMap()` followed by any finite sequence of
calls of the four exported update methods. -/
def Reachable (valid : Nat → Bool) (m : Map) : Prop :=
  ∃ cs : List Call, runCalls valid NewMap cs = some m

/-- A validity predicate for the worked examples: an identifier is valid when it is positive
as a signed 64-bit number. -/
def positiveInt64 (s : Nat) : Bool := decide (0 < int64 s)

/-- The registry of the worked examples: `NewMap()` after user 1 registered the user name
`bob`, took the nickname `bob` in scope 0, and channel 1 of scope 0 was named `bob`. -/
def bobRegistry : Map :=
  (runCalls positiveInt64 NewMap
    [.updateUser 1 ['b', 'o', 'b'], .updateNick 0 1 ['b', 'o', 'b'],
      .updateChannel 0 1 ['b', 'o', 'b']]).getD NewMap

/-- The forward map of nickname scope `g`, empty when the scope was never created. -/
def nickForward (m : Map) (g : Nat) : GoMap Nat GoString := (m.nicksf.lookup g).getD GoMap.empty

/-- The backward map of nickname scope `g`, empty when the scope was never created. -/
def nickBackward (m : Map) (g : Nat) : GoMap GoString Nat := (m.nicksb.lookup g).getD GoMap.empty

/-- The forward map of channel scope `g`, empty when the scope was never created. -/
def chanForward (m : Map) (g : Nat) : GoMap Nat GoString := (m.chansf.lookup g).getD GoMap.empty

/-- The backward map of channel scope `g`, empty when the scope was never created. -/
def chanBackward (m : Map) (g : Nat) : GoMap GoString Nat := (m.chansb.lookup g).getD GoMap.empty

/-- The stored entries of `m` and `m'` are the same: the two user maps, and the forward and
backward map of every nickname scope and of every channel scope. -/
def SameEntries (m m' : Map) : Prop :=
  m'.userf = m.userf ∧ m'.userb = m.userb ∧
  (∀ g, nickForward m' g = nickForward m g) ∧ (∀ g, nickBackward m' g = nickBackward m g) ∧
  (∀ g, chanForward m' g = chanForward m g) ∧ (∀ g, chanBackward m' g = chanBackward m g)

/-- Every exported lookup gives the same result, panics included, on `m` and on `m'`. -/
def SameLookups (valid : Nat → Bool) (m m' : Map) : Prop :=
  (∀ id, UserName valid m' id = UserName valid m id) ∧
  (∀ name, UserID m' name = UserID m name) ∧
  (∀ g id, NickName valid m' g id = NickName valid m g id) ∧
  (∀ g name, NickID valid m' g name = NickID valid m g name) ∧
  (∀ g id, ChannelName valid m' g id = ChannelName valid m g id) ∧
  (∀ g name, ChannelID valid m' g name = ChannelID valid m g name)

/-- The registry of the fallback example: `NewMap()` after user 1 took the nickname `carl` in
scope 0 and then registered the user name `caroline`. -/
def carlRegistry : Map :=
  (runCalls positiveInt64 NewMap
    [.updateNick 0 1 ['c', 'a', 'r', 'l'],
      .updateUser 1 ['c', 'a', 'r', 'o', 'l', 'i', 'n', 'e']]).getD NewMap

/-- The result of `k` successive rounds `name = mangle(name, id)`, starting from `name`; `none`
when a round panics. -/
def mangleRounds (id : Int) : Nat → GoString → Option GoString
  | 0, name => some name
  | k + 1, name =>
    match mangle name id with
    | some next => mangleRounds id k next
    | none => none

/-- The two-case description of `mangle` in section 4.1 of the spec, written from its words, on
the decimal digit string `d` of the identifier.  Without a separator in `name`: `name`, the
separator, the first digit.  With the first separator at position `i` and
`suffixLen = len(name) - i`: `name[0:i]`, the separator, and the first `suffixLen` characters
of `d` padded on the right with separators. -/
def mangleReference (name d : GoString) : GoString :=
  if '#' ∈ name then
    let i := name.indexOf '#'
    let suffixLen := name.length - i
    name.take i ++ '#' :: (d ++ List.replicate (suffixLen - d.length) '#').take suffixLen
  else name ++ '#' :: d.take 1

/-- The two user maps are mutually inverse on their entries: `userf` has the entry
`id -> n` exactly when `userb` has the entry `n -> id`. -/
def UserMapsInverse (m : Map) : Prop :=
  ∀ id n, m.userf.lookup id = some n ↔ m.userb.lookup n = some id

/-- Every forward entry `id -> n` of every nickname scope and of every channel scope has its
backward entry `n -> id` in the same scope. -/
def ScopeEntriesBacked (m : Map) : Prop :=
  ∀ g id n,
    ((nickForward m g).lookup id = some n → (nickBackward m g).lookup n = some id) ∧
    ((chanForward m g).lookup id = some n → (chanBackward m g).lookup n = some id)

/-- Every backward entry of a nickname or channel scope of `m` is an entry of the same scope
of `m'`, with the same identifier. -/
def ScopeBackwardKept (m m' : Map) : Prop :=
  ∀ g n id,
    ((nickBackward m g).lookup n = some id → (nickBackward m' g).lookup n = some id) ∧
    ((chanBackward m g).lookup n = some id → (chanBackward m' g).lookup n = some id)

/-- The registry of the shared-name example: `NewMap()` after users 1 and 2 both asked for the
nickname `bob` in scope 0 and channels 1 and 2 of scope 0 were both named `bob`. -/
def twoBobsRegistry : Map :=
  (runCalls positiveInt64 NewMap
    [.updateNick 0 1 ['b', 'o', 'b'], .updateNick 0 2 ['b', 'o', 'b'],
      .updateChannel 0 1 ['b', 'o', 'b'], .updateChannel 0 2 ['b', 'o', 'b']]).getD NewMap

/-! ## The listeners of `main.go` -/

/-- The errors `listen` and `listenTLS` return before they call the network library. -/
inductive ListenError where
  | certfileAndKeyfileRequired
  | failedToLoadKeypair
deriving DecidableEq, Repr

/-- The function `listen`, up to its call of `net.Listen`: the address it passes to
`net.Listen("tcp", addr)`.  The format `":%d"` prints the port with `FormatInt`. -/
def listen (port : Int) : GoString :=
  let port := if port = 0 then 6667 else port
  ':' :: FormatInt port

/-- The function `listenTLS`, up to its call of `tls.Listen`: the error it returns before the
call, or the address it passes to `tls.Listen("tcp", addr, config)`.  The library call
`tls.LoadX509KeyPair` is the parameter `loadX509KeyPair`, true when the pair loads. -/
def listenTLS (loadX509KeyPair : GoString → GoString → Bool) (port : Int)
    (certfile keyfile : GoString) : Except ListenError GoString :=
  if certfile = [] ∨ keyfile = [] then .error .certfileAndKeyfileRequired
  else if !loadX509KeyPair certfile keyfile then .error .failedToLoadKeypair
  else
    let port := if port = 0 then 6697 else port
    .ok (':' :: FormatInt port)

/-! ## Lemmas on Go maps -/

namespace GoMap

variable {κ ν : Type} [DecidableEq κ]

theorem lookupEntries_filter (l : List (κ × ν)) (k k' : κ) :
    lookupEntries (l.filter (fun e => !decide (e.1 = k))) k' =
      if k = k' then none else lookupEntries l k' := by
  induction l with
  | nil => simp [lookupEntries]
  | cons e rest ih =>
    by_cases h' : k = k'
    · subst h'
      by_cases h : e.1 = k
      · simpa [List.filter, h, lookupEntries] using ih
      · simpa [List.filter, h, lookupEntries] using ih
    · by_cases h : e.1 = k
      · have : ¬ e.1 = k' := fun hc => h' (h ▸ hc)
        simp [List.filter, h, lookupEntries, ih, h', this]
      · simp [List.filter, h, lookupEntries, ih, h']

theorem lookup_empty (k : κ) : (empty : GoMap κ ν).lookup k = none := rfl

theorem lookup_delete (m : GoMap κ ν) (k k' : κ) :
    (m.delete k).lookup k' = if k = k' then none else m.lookup k' := by
  simp [delete, lookup, lookupEntries_filter]

theorem lookup_store (m : GoMap κ ν) (k k' : κ) (v : ν) :
    (m.store k v).lookup k' = if k = k' then some v else m.lookup k' := by
  by_cases h : k = k'
  · simp [store, lookup, lookupEntries, h]
  · simp [store, lookup, lookupEntries, lookupEntries_filter, h]

theorem contains_eq_false_iff (m : GoMap κ ν) (k : κ) :
    m.contains k = false ↔ m.lookup k = none := by
  simp [contains]

theorem contains_eq_true_iff (m : GoMap κ ν) (k : κ) :
    m.contains k = true ↔ ∃ v, m.lookup k = some v := by
  simp [contains, Option.isSome_iff_exists]

theorem longKeys_le_length (back : List (GoString × ν)) (n : Nat) :
    longKeys back n ≤ back.length := List.countP_le_length _

theorem longKeys_lt_of_lookup (back : List (GoString × ν)) (name : GoString) (n : Nat)
    (hn : name.length < n) (h : (lookupEntries back name).isSome = true) :
    longKeys back n < longKeys back name.length := by
  induction back with
  | nil => simp [lookupEntries] at h
  | cons e rest ih =>
    have hmono : longKeys rest n ≤ longKeys rest name.length := by
      apply List.countP_mono_left
      intro x _ hx
      simp only [decide_eq_true_eq] at hx ⊢
      omega
    by_cases he : e.1 = name
    · simp only [longKeys, List.countP_cons] at hmono ⊢
      have h1 : ¬ n ≤ e.1.length := by rw [he]; omega
      have h2 : name.length ≤ e.1.length := by rw [he]
      simp [h1, h2]
      omega
    · have hrest : (lookupEntries rest name).isSome = true := by
        simpa [lookupEntries, he] using h
      have := ih hrest
      simp only [longKeys, List.countP_cons] at this ⊢
      by_cases h1 : n ≤ e.1.length
      · have h2 : name.length ≤ e.1.length := by omega
        simp [h1, h2]
        omega
      · simp [h1]
        split <;> omega

end GoMap

/-! ## Lemmas on the mangler -/

theorem IndexRune_eq_none {s : GoString} {r : Char} : IndexRune s r = none ↔ r ∉ s := by
  induction s with
  | nil => simp [IndexRune]
  | cons c cs ih =>
    by_cases h : c = r
    · simp [IndexRune, h]
    · have h' : ¬ r = c := fun hc => h hc.symm
      simp [IndexRune, h, h', ih]

theorem IndexRune_eq_some {s : GoString} {r : Char} {i : Nat} (h : IndexRune s r = some i) :
    i < s.length ∧ r ∉ s.take i ∧ s = s.take i ++ r :: s.drop (i + 1) := by
  induction s generalizing i with
  | nil => simp [IndexRune] at h
  | cons c cs ih =>
    by_cases hc : c = r
    · simp [IndexRune, hc] at h
      subst h
      simp [hc]
    · simp only [IndexRune, hc, if_false, Option.map_eq_some'] at h
      obtain ⟨j, hj, rfl⟩ := h
      obtain ⟨h1, h2, h3⟩ := ih hj
      have hc' : ¬ r = c := fun e => hc e.symm
      refine ⟨by simp; omega, by simp [hc', h2], ?_⟩
      simp only [List.take_succ_cons, List.drop_succ_cons, List.cons_append]
      rw [← h3]

theorem IndexRune_append_cons (pre suf : GoString) (r : Char) (h : r ∉ pre) :
    IndexRune (pre ++ r :: suf) r = some pre.length := by
  induction pre with
  | nil => simp [IndexRune]
  | cons c cs ih =>
    have hc : ¬ c = r := fun e => h (by simp [e])
    have hcs : r ∉ cs := fun e => h (by simp [e])
    simp [IndexRune, hc, ih hcs]

theorem demangle_append_sep (pre suf : GoString) (h : '#' ∉ pre) :
    demangle (pre ++ '#' :: suf) = pre := by
  simp [demangle, IndexRune_append_cons pre suf '#' h]

theorem demangle_of_not_mem {name : GoString} (h : '#' ∉ name) : demangle name = name := by
  simp [demangle, IndexRune_eq_none.mpr h]

theorem not_mem_demangle (name : GoString) : '#' ∉ demangle name := by
  unfold demangle
  cases h : IndexRune name '#' with
  | none => exact IndexRune_eq_none.mp h
  | some i => exact (IndexRune_eq_some h).2.1

theorem toDigitsCore_ne_nil (b : Nat) : ∀ (f n : Nat) (ds : List Char), ds ≠ [] →
    Nat.toDigitsCore b f n ds ≠ [] := by
  intro f
  induction f with
  | zero => intro n ds h; simpa [Nat.toDigitsCore] using h
  | succ f ih =>
    intro n ds h
    simp only [Nat.toDigitsCore]
    split
    · simp
    · exact ih _ _ (by simp)

theorem toDigits_ne_nil (n : Nat) : Nat.toDigits 10 n ≠ [] := by
  simp only [Nat.toDigits, Nat.toDigitsCore]
  split
  · simp
  · exact toDigitsCore_ne_nil 10 _ _ _ (by simp)

theorem FormatInt_ne_nil (i : Int) : FormatInt i ≠ [] := by
  unfold FormatInt
  split
  · simp
  · exact toDigits_ne_nil _

/-- One round of `mangle` returns, makes the name strictly longer and keeps what `demangle`
recovers. -/
theorem mangle_spec (name : GoString) (id : Int) :
    ∃ s, mangle name id = some s ∧ name.length < s.length ∧ demangle s = demangle name := by
  unfold mangle
  cases h : IndexRune name '#' with
  | none =>
    have hne := FormatInt_ne_nil id
    cases hf : FormatInt id with
    | nil => exact absurd hf hne
    | cons c cs =>
      have hmem := IndexRune_eq_none.mp h
      refine ⟨name ++ ['#', c], by simp, by simp, ?_⟩
      rw [demangle_append_sep name [c] hmem, demangle_of_not_mem hmem]
  | some i =>
    obtain ⟨hlt, hmem, hsplit⟩ := IndexRune_eq_some h
    have hpad : name.length - i ≤ (padSeparators (FormatInt id) (name.length - i)).length := by
      simp [padSeparators]; omega
    have h1 : sliceTo name i = some (name.take i) := by simp [sliceTo]; omega
    have h2 : sliceTo (padSeparators (FormatInt id) (name.length - i)) (name.length - i) =
        some ((padSeparators (FormatInt id) (name.length - i)).take (name.length - i)) := by
      simp only [sliceTo, hpad, if_true]
    refine ⟨name.take i ++ '#' ::
      (padSeparators (FormatInt id) (name.length - i)).take (name.length - i), ?_, ?_, ?_⟩
    · simp only [h1, h2]
    · simp [List.length_take]; omega
    · rw [demangle_append_sep _ _ hmem]
      simp [demangle, h]

/-! ## The retry loop -/

/-- With more fuel than the backward map has keys at least as long as the candidate, the loop
ends at `break`, on a name that is not a key, that demangles like the candidate, and that is
the candidate itself exactly when the candidate was free. -/
theorem collisionLoop_spec (back : GoMap GoString Nat) (id : Int) :
    ∀ (fuel : Nat) (name : GoString), GoMap.longKeys back.entries name.length < fuel →
    ∃ r, collisionLoop back id fuel name = some r ∧ back.contains r = false ∧
      demangle r = demangle name ∧
      (back.contains name = false → r = name) ∧
      (back.contains name = true → name.length < r.length) := by
  intro fuel
  induction fuel with
  | zero => intro name h; omega
  | succ fuel ih =>
    intro name h
    cases hc : back.contains name with
    | false =>
      exact ⟨name, by simp [collisionLoop, hc], hc, rfl, fun _ => rfl, by simp⟩
    | true =>
      obtain ⟨s, hs, hlen, hdem⟩ := mangle_spec name id
      have hlt := GoMap.longKeys_lt_of_lookup back.entries name s.length hlen hc
      obtain ⟨r, hr, hfree, hd, hsame, hlonger⟩ := ih s (by omega)
      refine ⟨r, by simp [collisionLoop, hc, hs, hr], hfree, hd.trans hdem, by simp, ?_⟩
      intro _
      cases hcs : back.contains s with
      | false => rw [hsame hcs]; exact hlen
      | true => have := hlonger hcs; omega

/-- The fuel the update functions pass is always enough. -/
theorem collisionLoop_total (back : GoMap GoString Nat) (id : Int) (name : GoString) :
    ∃ r, collisionLoop back id (back.len + 1) name = some r ∧ back.contains r = false ∧
      demangle r = demangle name ∧
      (back.contains name = false → r = name) ∧
      (back.contains name = true → name.length < r.length) :=
  collisionLoop_spec back id (back.len + 1) name
    (Nat.lt_succ_of_le (GoMap.longKeys_le_length back.entries name.length))

/-! ## What one update does -/

theorem updateUser_noop {m : Map} {id : Nat} {ideal cur : GoString}
    (h : m.userf.lookup id = some cur) (hd : demangle cur = ideal) :
    updateUser m id ideal = some (cur, cur, m) := by
  simp [updateUser, h, hd]

theorem updateUser_fresh {m : Map} {id : Nat} {ideal : GoString}
    (h : ∀ cur, m.userf.lookup id = some cur → demangle cur ≠ ideal) :
    ∃ newName, updateUser m id ideal =
        some ((m.userf.lookup id).getD [], newName,
          { m with
            userf := m.userf.store id newName
            userb := if (m.userf.lookup id).isSome then
                (m.userb.store newName id).delete ((m.userf.lookup id).getD [])
              else m.userb.store newName id }) ∧
      m.userb.contains newName = false ∧ demangle newName = demangle ideal ∧
      (m.userb.contains ideal = false → newName = ideal) ∧
      (m.userb.contains ideal = true → ideal.length < newName.length) := by
  obtain ⟨r, hr, hrest⟩ := collisionLoop_total m.userb (int64 id) ideal
  refine ⟨r, ?_, hrest⟩
  cases hl : m.userf.lookup id with
  | none => simp [updateUser, hl, hr]
  | some cur => simp [updateUser, hl, hr, h cur hl]

theorem updateNick_noop {m : Map} {g u : Nat} {ideal cur : GoString} {o : Bool}
    (h : (nickForward m g).lookup u = some cur) (hc : o = true ∨ demangle cur = ideal) :
    ∃ m', updateNick m g u ideal o = some (cur, cur, m') ∧
      m'.userf = m.userf ∧ m'.userb = m.userb ∧ m'.chansf = m.chansf ∧ m'.chansb = m.chansb ∧
      (∀ g', nickForward m' g' = nickForward m g') ∧
      (∀ g', nickBackward m' g' = nickBackward m g') := by
  cases hf : m.nicksf.lookup g with
  | none => simp [nickForward, hf, GoMap.lookup_empty] at h
  | some nf =>
    have hnf : nf.lookup u = some cur := by simpa [nickForward, hf] using h
    cases hb : m.nicksb.lookup g <;>
      simp [updateNick, updateNickMaps, hf, hb, GoMap.lookup_store, hnf, hc, nickForward,
        nickBackward] <;>
      refine ⟨fun g' => ?_, fun g' => ?_⟩ <;> by_cases hg : g = g' <;>
      first
        | (subst hg; simp [hf, hb])
        | simp [hg]

theorem updateNick_fresh {m : Map} {g u : Nat} {ideal : GoString} {o : Bool}
    (h : ∀ cur, (nickForward m g).lookup u = some cur → o = false ∧ demangle cur ≠ ideal) :
    ∃ newName m', updateNick m g u ideal o =
        some (((nickForward m g).lookup u).getD [], newName, m') ∧
      (nickBackward m g).contains newName = false ∧ demangle newName = demangle ideal ∧
      ((nickBackward m g).contains ideal = false → newName = ideal) ∧
      ((nickBackward m g).contains ideal = true → ideal.length < newName.length) ∧
      m'.userf = m.userf ∧
      m'.userb = (if ((nickForward m g).lookup u).isSome then
          m.userb.delete (((nickForward m g).lookup u).getD []) else m.userb) ∧
      m'.chansf = m.chansf ∧ m'.chansb = m.chansb ∧
      (∀ g', nickForward m' g' =
        if g = g' then (nickForward m g).store u newName else nickForward m g') ∧
      (∀ g', nickBackward m' g' =
        if g = g' then (nickBackward m g).store newName u else nickBackward m g') := by
  obtain ⟨r, hr, h1, h2, h3, h4⟩ := collisionLoop_total (nickBackward m g) (int64 u) ideal
  refine ⟨r, ?_⟩
  cases hf : m.nicksf.lookup g with
  | none =>
    cases hb : m.nicksb.lookup g <;>
      simp only [nickForward, nickBackward, hf, hb, Option.getD_none, Option.getD_some,
        GoMap.lookup_empty] at hr h1 h2 h3 h4 <;>
      simp [updateNick, updateNickMaps, hf, hb, hr, h1, h2, GoMap.lookup_store, nickForward,
        nickBackward, GoMap.lookup_empty] <;>
      refine ⟨h3, h4, fun g' => ?_, fun g' => ?_⟩ <;> by_cases hg : g = g' <;>
      first
        | (subst hg; simp [hf, hb])
        | simp [hg]
  | some nf =>
    cases hl : nf.lookup u with
    | none =>
      cases hb : m.nicksb.lookup g <;>
        simp only [nickForward, nickBackward, hf, hb, Option.getD_none, Option.getD_some,
          GoMap.lookup_empty] at hr h1 h2 h3 h4 <;>
        simp [updateNick, updateNickMaps, hf, hb, hl, hr, h1, h2, GoMap.lookup_store,
          nickForward, nickBackward, GoMap.lookup_empty] <;>
        refine ⟨h3, h4, fun g' => ?_, fun g' => ?_⟩ <;> by_cases hg : g = g' <;>
        first
          | (subst hg; simp [hf, hb])
          | simp [hg]
    | some cur =>
      have hcur := h cur (by simp [nickForward, hf, hl])
      cases hb : m.nicksb.lookup g <;>
        simp only [nickForward, nickBackward, hf, hb, Option.getD_none, Option.getD_some,
          GoMap.lookup_empty] at hr h1 h2 h3 h4 <;>
        simp [updateNick, updateNickMaps, hf, hb, hl, hr, h1, h2, hcur.1, hcur.2,
          GoMap.lookup_store, nickForward, nickBackward, GoMap.lookup_empty] <;>
        refine ⟨h3, h4, fun g' => ?_, fun g' => ?_⟩ <;> by_cases hg : g = g' <;>
        first
          | (subst hg; simp [hf, hb])
          | simp [hg]

theorem updateChannel_noop {m : Map} {g u : Nat} {ideal cur : GoString}
    (h : (chanForward m g).lookup u = some cur) (hc : demangle cur = ideal) :
    ∃ m', updateChannel m g u ideal = some (cur, cur, m') ∧
      m'.userf = m.userf ∧ m'.userb = m.userb ∧ m'.nicksf = m.nicksf ∧ m'.nicksb = m.nicksb ∧
      (∀ g', chanForward m' g' = chanForward m g') ∧
      (∀ g', chanBackward m' g' = chanBackward m g') := by
  cases hf : m.chansf.lookup g with
  | none => simp [chanForward, hf, GoMap.lookup_empty] at h
  | some nf =>
    have hnf : nf.lookup u = some cur := by simpa [chanForward, hf] using h
    cases hb : m.chansb.lookup g <;>
      simp [updateChannel, updateChannelMaps, hf, hb, GoMap.lookup_store, hnf, hc, chanForward,
        chanBackward] <;>
      refine ⟨fun g' => ?_, fun g' => ?_⟩ <;> by_cases hg : g = g' <;>
      first
        | (subst hg; simp [hf, hb])
        | simp [hg]

theorem updateChannel_fresh {m : Map} {g u : Nat} {ideal : GoString}
    (h : ∀ cur, (chanForward m g).lookup u = some cur → demangle cur ≠ ideal) :
    ∃ newName m', updateChannel m g u ideal =
        some (((chanForward m g).lookup u).getD [], newName, m') ∧
      (chanBackward m g).contains newName = false ∧ demangle newName = demangle ideal ∧
      ((chanBackward m g).contains ideal = false → newName = ideal) ∧
      ((chanBackward m g).contains ideal = true → ideal.length < newName.length) ∧
      m'.userf = m.userf ∧
      m'.userb = (if ((chanForward m g).lookup u).isSome then
          m.userb.delete (((chanForward m g).lookup u).getD []) else m.userb) ∧
      m'.nicksf = m.nicksf ∧ m'.nicksb = m.nicksb ∧
      (∀ g', chanForward m' g' =
        if g = g' then (chanForward m g).store u newName else chanForward m g') ∧
      (∀ g', chanBackward m' g' =
        if g = g' then (chanBackward m g).store newName u else chanBackward m g') := by
  obtain ⟨r, hr, h1, h2, h3, h4⟩ := collisionLoop_total (chanBackward m g) (int64 u) ideal
  refine ⟨r, ?_⟩
  cases hf : m.chansf.lookup g with
  | none =>
    cases hb : m.chansb.lookup g <;>
      simp only [chanForward, chanBackward, hf, hb, Option.getD_none, Option.getD_some,
        GoMap.lookup_empty] at hr h1 h2 h3 h4 <;>
      simp [updateChannel, updateChannelMaps, hf, hb, hr, h1, h2, GoMap.lookup_store, chanForward,
        chanBackward, GoMap.lookup_empty] <;>
      refine ⟨h3, h4, fun g' => ?_, fun g' => ?_⟩ <;> by_cases hg : g = g' <;>
      first
        | (subst hg; simp [hf, hb])
        | simp [hg]
  | some nf =>
    cases hl : nf.lookup u with
    | none =>
      cases hb : m.chansb.lookup g <;>
        simp only [chanForward, chanBackward, hf, hb, Option.getD_none, Option.getD_some,
          GoMap.lookup_empty] at hr h1 h2 h3 h4 <;>
        simp [updateChannel, updateChannelMaps, hf, hb, hl, hr, h1, h2, GoMap.lookup_store,
          chanForward, chanBackward, GoMap.lookup_empty] <;>
        refine ⟨h3, h4, fun g' => ?_, fun g' => ?_⟩ <;> by_cases hg : g = g' <;>
        first
          | (subst hg; simp [hf, hb])
          | simp [hg]
    | some cur =>
      have hcur := h cur (by simp [chanForward, hf, hl])
      cases hb : m.chansb.lookup g <;>
        simp only [chanForward, chanBackward, hf, hb, Option.getD_none, Option.getD_some,
          GoMap.lookup_empty] at hr h1 h2 h3 h4 <;>
        simp [updateChannel, updateChannelMaps, hf, hb, hl, hr, h1, h2, hcur,
          GoMap.lookup_store, chanForward, chanBackward, GoMap.lookup_empty] <;>
        refine ⟨h3, h4, fun g' => ?_, fun g' => ?_⟩ <;> by_cases hg : g = g' <;>
        first
          | (subst hg; simp [hf, hb])
          | simp [hg]

/-! ## The lookups, read off the maps of a scope -/

theorem UserName_eq (valid : Nat → Bool) (m : Map) (id : Nat) :
    UserName valid m id =
      if valid id = true then some ((m.userf.lookup id).getD []) else none := by
  cases h : valid id <;> simp [UserName, userName, h]

theorem UserID_eq (m : Map) (name : GoString) :
    UserID m name = if name = [] then none else some ((m.userb.lookup name).getD 0) := rfl

theorem NickName_eq (valid : Nat → Bool) (m : Map) (g id : Nat) :
    NickName valid m g id =
      if (!valid g && g != 0) = true then none
      else if valid id = true then some (((nickForward m g).lookup id).getD []) else none := by
  cases hv : valid id <;> cases h : m.nicksf.lookup g <;>
    simp [NickName, nickName, nickForward, h, hv, GoMap.lookup_empty]

theorem NickID_eq (valid : Nat → Bool) (m : Map) (g : Nat) (name : GoString) :
    NickID valid m g name =
      if (!valid g && g != 0) = true then none
      else if name = [] then none else some (((nickBackward m g).lookup name).getD 0) := by
  cases h : m.nicksb.lookup g <;> simp [NickID, nickBackward, h, GoMap.lookup_empty]

theorem ChannelName_eq (valid : Nat → Bool) (m : Map) (g id : Nat) :
    ChannelName valid m g id =
      if (!valid g && g != 0) = true then none
      else if valid id = true then some (((chanForward m g).lookup id).getD []) else none := by
  cases hv : valid id <;> cases h : m.chansf.lookup g <;>
    simp [ChannelName, chanForward, h, hv, GoMap.lookup_empty]

theorem ChannelID_eq (valid : Nat → Bool) (m : Map) (g : Nat) (name : GoString) :
    ChannelID valid m g name =
      if (!valid g && g != 0) = true then none
      else if name = [] then none else some (((chanBackward m g).lookup name).getD 0) := by
  cases h : m.chansb.lookup g <;> simp [ChannelID, chanBackward, h, GoMap.lookup_empty]

theorem SameEntries.sameLookups {m m' : Map} (valid : Nat → Bool) (h : SameEntries m m') :
    SameLookups valid m m' := by
  obtain ⟨h1, h2, h3, h4, h5, h6⟩ := h
  refine ⟨?_, ?_, ?_, ?_, ?_, ?_⟩
  · intro id; rw [UserName_eq, UserName_eq, h1]
  · intro n; rw [UserID_eq, UserID_eq, h2]
  · intro g id; rw [NickName_eq, NickName_eq, h3]
  · intro g n; rw [NickID_eq, NickID_eq, h4]
  · intro g id; rw [ChannelName_eq, ChannelName_eq, h5]
  · intro g n; rw [ChannelID_eq, ChannelID_eq, h6]

theorem UserName_of_isSome {valid : Nat → Bool} {m : Map} {id : Nat}
    (h : (UserName valid m id).isSome = true) (m' : Map) :
    UserName valid m' id = some ((m'.userf.lookup id).getD []) := by
  rw [UserName_eq] at h ⊢
  cases hv : valid id <;> simp [hv] at h ⊢

theorem NickName_of_isSome {valid : Nat → Bool} {m : Map} {g id : Nat}
    (h : (NickName valid m g id).isSome = true) (m' : Map) :
    NickName valid m' g id = some (((nickForward m' g).lookup id).getD []) := by
  rw [NickName_eq] at h ⊢
  cases hg : (!valid g && g != 0) <;> cases hv : valid id <;> simp [hg, hv] at h ⊢

theorem NickID_of_isSome {valid : Nat → Bool} {m : Map} {g : Nat} {name : GoString}
    (h : (NickID valid m g name).isSome = true) (m' : Map) :
    NickID valid m' g name = some (((nickBackward m' g).lookup name).getD 0) := by
  rw [NickID_eq] at h ⊢
  cases hg : (!valid g && g != 0) <;> by_cases hn : name = [] <;> simp [hg, hn] at h ⊢

theorem ChannelName_of_isSome {valid : Nat → Bool} {m : Map} {g id : Nat}
    (h : (ChannelName valid m g id).isSome = true) (m' : Map) :
    ChannelName valid m' g id = some (((chanForward m' g).lookup id).getD []) := by
  rw [ChannelName_eq] at h ⊢
  cases hg : (!valid g && g != 0) <;> cases hv : valid id <;> simp [hg, hv] at h ⊢

theorem ChannelID_of_isSome {valid : Nat → Bool} {m : Map} {g : Nat} {name : GoString}
    (h : (ChannelID valid m g name).isSome = true) (m' : Map) :
    ChannelID valid m' g name = some (((chanBackward m' g).lookup name).getD 0) := by
  rw [ChannelID_eq] at h ⊢
  cases hg : (!valid g && g != 0) <;> by_cases hn : name = [] <;> simp [hg, hn] at h ⊢

/-- The two ways an update can go: the stored name already demangles to `ideal`, or not. -/
theorem noop_or_fresh (entry : Option GoString) (ideal : GoString) :
    (∃ cur, entry = some cur ∧ demangle cur = ideal) ∨
      (∀ cur, entry = some cur → demangle cur ≠ ideal) := by
  cases entry with
  | none => exact Or.inr (fun _ h => by simp at h)
  | some c =>
    by_cases h : demangle c = ideal
    · exact Or.inl ⟨c, rfl, h⟩
    · exact Or.inr (fun cur hc => by cases hc; exact h)

/-! ## The claims: what every update returns -/

/-- C3.  For `UpdateUser`, `UpdateNick` and `UpdateChannel`, on every registry, identifier and
separator-free ideal name: the call returns a pair `(before, current)`; whenever the matching
name lookup of the identifier does not panic, it returned `before` just before the call and
returns `current` just after it; and `current` demangles to the ideal name. -/
theorem update_returns_before_and_current (valid : Nat → Bool) (m : Map) (g id : Nat)
    (ideal : GoString) (hsep : '#' ∉ ideal) :
    (∃ before current m', UpdateUser m id ideal = some (before, current, m') ∧
      ((UserName valid m id).isSome = true →
        UserName valid m id = some before ∧ UserName valid m' id = some current) ∧
      demangle current = ideal) ∧
    (∃ before current m', UpdateNick m g id ideal = some (before, current, m') ∧
      ((NickName valid m g id).isSome = true →
        NickName valid m g id = some before ∧ NickName valid m' g id = some current) ∧
      demangle current = ideal) ∧
    (∃ before current m', UpdateChannel m g id ideal = some (before, current, m') ∧
      ((ChannelName valid m g id).isSome = true →
        ChannelName valid m g id = some before ∧ ChannelName valid m' g id = some current) ∧
      demangle current = ideal) := by
  have hid : demangle ideal = ideal := demangle_of_not_mem hsep
  refine ⟨?_, ?_, ?_⟩
  · rcases noop_or_fresh (m.userf.lookup id) ideal with ⟨cur, hl, hd⟩ | hfresh
    · refine ⟨cur, cur, m, updateUser_noop hl hd, fun hs => ?_, hd⟩
      simp [UserName_of_isSome hs, hl]
    · obtain ⟨newName, hu, _, hdem, _, _⟩ := updateUser_fresh hfresh
      refine ⟨_, newName, _, hu, fun hs => ?_, hdem.trans hid⟩
      simp [UserName_of_isSome hs, GoMap.lookup_store]
  · rcases noop_or_fresh ((nickForward m g).lookup id) ideal with ⟨cur, hl, hd⟩ | hfresh
    · obtain ⟨m', hu, _, _, _, _, hf, _⟩ := updateNick_noop (o := false) hl (Or.inr hd)
      refine ⟨cur, cur, m', hu, fun hs => ?_, hd⟩
      simp [NickName_of_isSome hs, hf, hl]
    · obtain ⟨newName, m', hu, _, hdem, _, _, _, _, _, _, hf, _⟩ :=
        updateNick_fresh (o := false) (fun cur hc => ⟨rfl, hfresh cur hc⟩)
      refine ⟨_, newName, m', hu, fun hs => ?_, hdem.trans hid⟩
      simp [NickName_of_isSome hs, hf, GoMap.lookup_store]
  · rcases noop_or_fresh ((chanForward m g).lookup id) ideal with ⟨cur, hl, hd⟩ | hfresh
    · obtain ⟨m', hu, _, _, _, _, hf, _⟩ := updateChannel_noop hl hd
      refine ⟨cur, cur, m', hu, fun hs => ?_, hd⟩
      simp [ChannelName_of_isSome hs, hf, hl]
    · obtain ⟨newName, m', hu, _, hdem, _, _, _, _, _, _, hf, _⟩ := updateChannel_fresh hfresh
      refine ⟨_, newName, m', hu, fun hs => ?_, hdem.trans hid⟩
      simp [ChannelName_of_isSome hs, hf, GoMap.lookup_store]

/-- Where the code grants the ideal name unmangled: in `UpdateUser`, `UpdateNick` and
`UpdateChannel`, on every registry, when the ideal name is not a key of the matching backward
map and the identifier's current name is absent or does not demangle to it, the update returns
`current = ideal`. -/
theorem ideal_granted_when_no_entry (m : Map) (g id : Nat) (ideal : GoString) :
    (m.userb.contains ideal = false →
      (∀ cur, m.userf.lookup id = some cur → demangle cur ≠ ideal) →
      ∃ before m', UpdateUser m id ideal = some (before, ideal, m')) ∧
    ((nickBackward m g).contains ideal = false →
      (∀ cur, (nickForward m g).lookup id = some cur → demangle cur ≠ ideal) →
      ∃ before m', UpdateNick m g id ideal = some (before, ideal, m')) ∧
    ((chanBackward m g).contains ideal = false →
      (∀ cur, (chanForward m g).lookup id = some cur → demangle cur ≠ ideal) →
      ∃ before m', UpdateChannel m g id ideal = some (before, ideal, m')) := by
  refine ⟨fun hfree hcur => ?_, fun hfree hcur => ?_, fun hfree hcur => ?_⟩
  · obtain ⟨newName, hu, _, _, hsame, _⟩ := updateUser_fresh hcur
    have := hsame hfree
    subst this
    exact ⟨_, _, hu⟩
  · obtain ⟨newName, m', hu, _, _, hsame, _⟩ :=
      updateNick_fresh (o := false) (fun cur hc => ⟨rfl, hcur cur hc⟩)
    have := hsame hfree
    subst this
    exact ⟨_, m', hu⟩
  · obtain ⟨newName, m', hu, _, _, hsame, _⟩ := updateChannel_fresh hcur
    have := hsame hfree
    subst this
    exact ⟨_, m', hu⟩

/-- C7, amended.  For `UpdateUser`, `UpdateNick` and `UpdateChannel`, on every registry, for
every identifier and every separator-free name `x`: when the first update leaves the
identifier with the name `x'`, the same update again returns `(x', x')`, and it changes no
stored entry and no lookup result of any namespace. -/
theorem update_twice_is_noop (valid : Nat → Bool) (m : Map) (g id : Nat) (x : GoString)
    (hsep : '#' ∉ x) :
    (∃ before x' m1, UpdateUser m id x = some (before, x', m1) ∧
      ∃ m2, UpdateUser m1 id x = some (x', x', m2) ∧
        SameEntries m1 m2 ∧ SameLookups valid m1 m2) ∧
    (∃ before x' m1, UpdateNick m g id x = some (before, x', m1) ∧
      ∃ m2, UpdateNick m1 g id x = some (x', x', m2) ∧
        SameEntries m1 m2 ∧ SameLookups valid m1 m2) ∧
    (∃ before x' m1, UpdateChannel m g id x = some (before, x', m1) ∧
      ∃ m2, UpdateChannel m1 g id x = some (x', x', m2) ∧
        SameEntries m1 m2 ∧ SameLookups valid m1 m2) := by
  have hid : demangle x = x := demangle_of_not_mem hsep
  refine ⟨?_, ?_, ?_⟩
  · have hfirst : ∃ before x' m1, UpdateUser m id x = some (before, x', m1) ∧
        m1.userf.lookup id = some x' ∧ demangle x' = x := by
      rcases noop_or_fresh (m.userf.lookup id) x with ⟨cur, hl, hd⟩ | hfresh
      · exact ⟨cur, cur, m, updateUser_noop hl hd, hl, hd⟩
      · obtain ⟨newName, hu, _, hdem, _, _⟩ := updateUser_fresh hfresh
        exact ⟨_, newName, _, hu, by simp [GoMap.lookup_store], hdem.trans hid⟩
    obtain ⟨before, x', m1, hu, hl, hd⟩ := hfirst
    have hsame : SameEntries m1 m1 := ⟨rfl, rfl, fun _ => rfl, fun _ => rfl, fun _ => rfl,
      fun _ => rfl⟩
    exact ⟨before, x', m1, hu, m1, updateUser_noop hl hd, hsame, hsame.sameLookups valid⟩
  · have hfirst : ∃ before x' m1, UpdateNick m g id x = some (before, x', m1) ∧
        (nickForward m1 g).lookup id = some x' ∧ demangle x' = x := by
      rcases noop_or_fresh ((nickForward m g).lookup id) x with ⟨cur, hl, hd⟩ | hfresh
      · obtain ⟨m', hu, _, _, _, _, hf, _⟩ := updateNick_noop (o := false) hl (Or.inr hd)
        exact ⟨cur, cur, m', hu, by rw [hf]; exact hl, hd⟩
      · obtain ⟨newName, m', hu, _, hdem, _, _, _, _, _, _, hf, _⟩ :=
          updateNick_fresh (o := false) (fun cur hc => ⟨rfl, hfresh cur hc⟩)
        exact ⟨_, newName, m', hu, by simp [hf, GoMap.lookup_store], hdem.trans hid⟩
    obtain ⟨before, x', m1, hu, hl, hd⟩ := hfirst
    obtain ⟨m2, hu2, h1, h2, h3, h4, h5, h6⟩ := updateNick_noop (o := false) hl (Or.inr hd)
    have hsame : SameEntries m1 m2 :=
      ⟨h1, h2, h5, h6, fun g' => by simp [chanForward, h3], fun g' => by simp [chanBackward, h4]⟩
    exact ⟨before, x', m1, hu, m2, hu2, hsame, hsame.sameLookups valid⟩
  · have hfirst : ∃ before x' m1, UpdateChannel m g id x = some (before, x', m1) ∧
        (chanForward m1 g).lookup id = some x' ∧ demangle x' = x := by
      rcases noop_or_fresh ((chanForward m g).lookup id) x with ⟨cur, hl, hd⟩ | hfresh
      · obtain ⟨m', hu, _, _, _, _, hf, _⟩ := updateChannel_noop hl hd
        exact ⟨cur, cur, m', hu, by rw [hf]; exact hl, hd⟩
      · obtain ⟨newName, m', hu, _, hdem, _, _, _, _, _, _, hf, _⟩ := updateChannel_fresh hfresh
        exact ⟨_, newName, m', hu, by simp [hf, GoMap.lookup_store], hdem.trans hid⟩
    obtain ⟨before, x', m1, hu, hl, hd⟩ := hfirst
    obtain ⟨m2, hu2, h1, h2, h3, h4, h5, h6⟩ := updateChannel_noop hl hd
    have hsame : SameEntries m1 m2 :=
      ⟨h1, h2, fun g' => by simp [nickForward, h3], fun g' => by simp [nickBackward, h4], h5, h6⟩
    exact ⟨before, x', m1, hu, m2, hu2, hsame, hsame.sameLookups valid⟩

/-- A backward map that resolves `n` to a non-zero identifier has an entry for `n`. -/
theorem lookup_of_getD_ne_zero {back : GoMap GoString Nat} {n : GoString} {a : Nat}
    (h : (back.lookup n).getD 0 = a) (ha : a ≠ 0) : back.lookup n = some a := by
  cases hl : back.lookup n with
  | none => rw [hl] at h; exact absurd h.symm ha
  | some v => rw [hl] at h; exact congrArg some h

/-- C8.  In each namespace, on every registry in which identifier `A` holds the
separator-free name `n` (the name lookup of `A` returns `n` and the identifier lookup of `n`
returns `A`), for every identifier `B` other than `A` whose current name is absent or does not
demangle to `n`: the update of `B` with `n` returns a current name that differs from `n` and
demangles to `n`, and afterwards both lookups of the loser `A` are as before.  The validity
predicate is any that rejects zero. -/
theorem collision_preserves_loser (valid : Nat → Bool) (hzero : valid 0 = false) (m : Map)
    (g A B : Nat) (n : GoString) (hsep : '#' ∉ n) (hAB : B ≠ A) :
    (UserName valid m A = some n → UserID m n = some A →
      (∀ cur, m.userf.lookup B = some cur → demangle cur ≠ n) →
      ∃ before current m', UpdateUser m B n = some (before, current, m') ∧
        current ≠ n ∧ demangle current = n ∧
        UserName valid m' A = some n ∧ UserID m' n = some A) ∧
    (NickName valid m g A = some n → NickID valid m g n = some A →
      (∀ cur, (nickForward m g).lookup B = some cur → demangle cur ≠ n) →
      ∃ before current m', UpdateNick m g B n = some (before, current, m') ∧
        current ≠ n ∧ demangle current = n ∧
        NickName valid m' g A = some n ∧ NickID valid m' g n = some A) ∧
    (ChannelName valid m g A = some n → ChannelID valid m g n = some A →
      (∀ cur, (chanForward m g).lookup B = some cur → demangle cur ≠ n) →
      ∃ before current m', UpdateChannel m g B n = some (before, current, m') ∧
        current ≠ n ∧ demangle current = n ∧
        ChannelName valid m' g A = some n ∧ ChannelID valid m' g n = some A) := by
  have hid : demangle n = n := demangle_of_not_mem hsep
  have hBA : ¬ B = A := hAB
  refine ⟨fun hname hidl hcur => ?_, fun hname hidl hcur => ?_, fun hname hidl hcur => ?_⟩
  · have hs1 : (UserName valid m A).isSome = true := by rw [hname]; rfl
    have hvalid : valid A = true := by
      rw [UserName_eq] at hname
      cases hv : valid A <;> simp [hv] at hname ⊢
    have hA0 : A ≠ 0 := fun h0 => by rw [h0, hzero] at hvalid; exact absurd hvalid (by simp)
    have hfw : (m.userf.lookup A).getD [] = n := by
      have := UserName_of_isSome hs1 m
      rw [hname] at this
      exact (Option.some.inj this).symm
    have hne : n ≠ [] := fun h0 => by simp [UserID_eq, h0] at hidl
    have hbw : m.userb.lookup n = some A := by
      apply lookup_of_getD_ne_zero _ hA0
      simpa [UserID_eq, hne] using hidl
    have hcont : m.userb.contains n = true := by simp [GoMap.contains, hbw]
    obtain ⟨newName, hu, hfree, hdem, _, hlonger⟩ := updateUser_fresh hcur
    have hlen := hlonger hcont
    have hnn : newName ≠ n := fun h0 => by rw [h0] at hlen; omega
    refine ⟨_, newName, _, hu, hnn, hdem.trans hid, ?_, ?_⟩
    · rw [UserName_of_isSome hs1]
      simp [GoMap.lookup_store, hBA, hfw]
    · rw [UserID_eq]
      cases hl : m.userf.lookup B with
      | none => simp [hl, hne, GoMap.lookup_store, hnn, hbw]
      | some cur =>
        have hcn : ¬ cur = n := fun h0 => hcur cur hl (by rw [h0]; exact hid)
        simp [hl, hne, GoMap.lookup_store, GoMap.lookup_delete, hnn, hcn, hbw]
  · have hs1 : (NickName valid m g A).isSome = true := by rw [hname]; rfl
    have hs2 : (NickID valid m g n).isSome = true := by rw [hidl]; rfl
    have hvalid : valid A = true := by
      rw [NickName_eq] at hname
      cases hv : valid A <;> simp [hv] at hname ⊢
    have hA0 : A ≠ 0 := fun h0 => by rw [h0, hzero] at hvalid; exact absurd hvalid (by simp)
    have hfw : ((nickForward m g).lookup A).getD [] = n := by
      have := NickName_of_isSome hs1 m
      rw [hname] at this
      exact (Option.some.inj this).symm
    have hbw : (nickBackward m g).lookup n = some A := by
      apply lookup_of_getD_ne_zero _ hA0
      have := NickID_of_isSome hs2 m
      rw [hidl] at this
      exact (Option.some.inj this).symm
    have hcont : (nickBackward m g).contains n = true := by simp [GoMap.contains, hbw]
    obtain ⟨newName, m', hu, hfree, hdem, _, hlonger, _, _, _, _, hf, hb⟩ :=
      updateNick_fresh (o := false) (fun cur hc => ⟨rfl, hcur cur hc⟩)
    have hlen := hlonger hcont
    have hnn : newName ≠ n := fun h0 => by rw [h0] at hlen; omega
    refine ⟨_, newName, m', hu, hnn, hdem.trans hid, ?_, ?_⟩
    · rw [NickName_of_isSome hs1]
      simp [hf, GoMap.lookup_store, hBA, hfw]
    · rw [NickID_of_isSome hs2]
      simp [hb, GoMap.lookup_store, hnn, hbw]
  · have hs1 : (ChannelName valid m g A).isSome = true := by rw [hname]; rfl
    have hs2 : (ChannelID valid m g n).isSome = true := by rw [hidl]; rfl
    have hvalid : valid A = true := by
      rw [ChannelName_eq] at hname
      cases hv : valid A <;> simp [hv] at hname ⊢
    have hA0 : A ≠ 0 := fun h0 => by rw [h0, hzero] at hvalid; exact absurd hvalid (by simp)
    have hfw : ((chanForward m g).lookup A).getD [] = n := by
      have := ChannelName_of_isSome hs1 m
      rw [hname] at this
      exact (Option.some.inj this).symm
    have hbw : (chanBackward m g).lookup n = some A := by
      apply lookup_of_getD_ne_zero _ hA0
      have := ChannelID_of_isSome hs2 m
      rw [hidl] at this
      exact (Option.some.inj this).symm
    have hcont : (chanBackward m g).contains n = true := by simp [GoMap.contains, hbw]
    obtain ⟨newName, m', hu, hfree, hdem, _, hlonger, _, _, _, _, hf, hb⟩ :=
      updateChannel_fresh hcur
    have hlen := hlonger hcont
    have hnn : newName ≠ n := fun h0 => by rw [h0] at hlen; omega
    refine ⟨_, newName, m', hu, hnn, hdem.trans hid, ?_, ?_⟩
    · rw [ChannelName_of_isSome hs1]
      simp [hf, GoMap.lookup_store, hBA, hfw]
    · rw [ChannelID_of_isSome hs2]
      simp [hb, GoMap.lookup_store, hnn, hbw]

/-- The nickname maps of a scope other than the updated one are left as they were. -/
theorem updateNick_other_scope (m : Map) (g u : Nat) (ideal : GoString) (o : Bool) :
    ∃ before current m', updateNick m g u ideal o = some (before, current, m') ∧
      ∀ g', g ≠ g' → nickForward m' g' = nickForward m g' ∧
        nickBackward m' g' = nickBackward m g' := by
  by_cases hn : ∃ cur, (nickForward m g).lookup u = some cur ∧
      (o = true ∨ demangle cur = ideal)
  · obtain ⟨cur, hl, hc⟩ := hn
    obtain ⟨m', hu, _, _, _, _, hf, hb⟩ := updateNick_noop hl hc
    exact ⟨cur, cur, m', hu, fun g' _ => ⟨hf g', hb g'⟩⟩
  · have hfresh : ∀ cur, (nickForward m g).lookup u = some cur →
        o = false ∧ demangle cur ≠ ideal := by
      intro cur hl
      constructor
      · cases ho : o with
        | false => rfl
        | true => exact absurd ⟨cur, hl, Or.inl ho⟩ hn
      · exact fun hd => hn ⟨cur, hl, Or.inr hd⟩
    obtain ⟨newName, m', hu, _, _, _, _, _, _, _, _, hf, hb⟩ := updateNick_fresh hfresh
    exact ⟨_, newName, m', hu, fun g' hg => ⟨by simp [hf, hg], by simp [hb, hg]⟩⟩

/-- The channel maps of a scope other than the updated one are left as they were. -/
theorem updateChannel_other_scope (m : Map) (g u : Nat) (ideal : GoString) :
    ∃ before current m', updateChannel m g u ideal = some (before, current, m') ∧
      ∀ g', g ≠ g' → chanForward m' g' = chanForward m g' ∧
        chanBackward m' g' = chanBackward m g' := by
  rcases noop_or_fresh ((chanForward m g).lookup u) ideal with ⟨cur, hl, hd⟩ | hfresh
  · obtain ⟨m', hu, _, _, _, _, hf, hb⟩ := updateChannel_noop hl hd
    exact ⟨cur, cur, m', hu, fun g' _ => ⟨hf g', hb g'⟩⟩
  · obtain ⟨newName, m', hu, _, _, _, _, _, _, _, _, hf, hb⟩ := updateChannel_fresh hfresh
    exact ⟨_, newName, m', hu, fun g' hg => ⟨by simp [hf, hg], by simp [hb, hg]⟩⟩

/-- C10.  For every registry and two different scopes `g1` and `g2`: `UpdateNick` in `g1`
returns and changes no `NickName` or `NickID` result of `g2`, `UpdateChannel` in `g1` returns
and changes no `ChannelName` or `ChannelID` result of `g2`; and from `NewMap()`, the update of
`idA` with `bob` in `g1` followed by the update of `idB` with `bob` in `g2` both return the
current name `bob`. -/
theorem scopes_are_independent (valid : Nat → Bool) (m : Map) (g1 g2 id : Nat)
    (ideal : GoString) (hg : g1 ≠ g2) :
    (∃ before current m', UpdateNick m g1 id ideal = some (before, current, m') ∧
      (∀ u, NickName valid m' g2 u = NickName valid m g2 u) ∧
      (∀ name, NickID valid m' g2 name = NickID valid m g2 name)) ∧
    (∃ before current m', UpdateChannel m g1 id ideal = some (before, current, m') ∧
      (∀ c, ChannelName valid m' g2 c = ChannelName valid m g2 c) ∧
      (∀ name, ChannelID valid m' g2 name = ChannelID valid m g2 name)) ∧
    (∀ idA idB, ∃ m1 m2,
      UpdateNick NewMap g1 idA ['b', 'o', 'b'] = some ([], ['b', 'o', 'b'], m1) ∧
      UpdateNick m1 g2 idB ['b', 'o', 'b'] = some ([], ['b', 'o', 'b'], m2)) := by
  refine ⟨?_, ?_, ?_⟩
  · obtain ⟨before, current, m', hu, hother⟩ := updateNick_other_scope m g1 id ideal false
    obtain ⟨hf, hb⟩ := hother g2 hg
    exact ⟨before, current, m', hu, fun u => by rw [NickName_eq, NickName_eq, hf],
      fun name => by rw [NickID_eq, NickID_eq, hb]⟩
  · obtain ⟨before, current, m', hu, hother⟩ := updateChannel_other_scope m g1 id ideal
    obtain ⟨hf, hb⟩ := hother g2 hg
    exact ⟨before, current, m', hu, fun u => by rw [ChannelName_eq, ChannelName_eq, hf],
      fun name => by rw [ChannelID_eq, ChannelID_eq, hb]⟩
  · intro idA idB
    have he1 : ∀ g, nickForward NewMap g = GoMap.empty := fun _ => rfl
    have he2 : ∀ g, nickBackward NewMap g = GoMap.empty := fun _ => rfl
    obtain ⟨n1, m1, hu1, _, _, hsame1, _, _, _, _, _, hf1, hb1⟩ :=
      @updateNick_fresh NewMap g1 idA ['b', 'o', 'b'] false
        (fun cur hc => by simp [he1, GoMap.lookup_empty] at hc)
    have hn1 : n1 = ['b', 'o', 'b'] := hsame1 (by simp [he2, GoMap.contains, GoMap.lookup_empty])
    subst hn1
    have hf2 : nickForward m1 g2 = GoMap.empty := by simp [hf1, hg, he1]
    have hb2 : nickBackward m1 g2 = GoMap.empty := by simp [hb1, hg, he2]
    obtain ⟨n2, m2, hu2, _, _, hsame2, _⟩ :=
      @updateNick_fresh m1 g2 idB ['b', 'o', 'b'] false
        (fun cur hc => by simp [hf2, GoMap.lookup_empty] at hc)
    have hn2 : n2 = ['b', 'o', 'b'] := hsame2 (by simp [hb2, GoMap.contains, GoMap.lookup_empty])
    subst hn2
    refine ⟨m1, m2, ?_, ?_⟩
    · simpa [UpdateNick, he1, GoMap.lookup_empty] using hu1
    · simpa [UpdateNick, hf2, GoMap.lookup_empty] using hu2

/-! ## The claims: the mangler -/

/-- After `k` rounds the name exists, demangles as before and has grown by at least `k`. -/
theorem mangleRounds_spec (id : Int) : ∀ (k : Nat) (name : GoString),
    ∃ s, mangleRounds id k name = some s ∧ demangle s = demangle name ∧
      name.length + k ≤ s.length := by
  intro k
  induction k with
  | zero => intro name; exact ⟨name, rfl, rfl, by simp⟩
  | succ k ih =>
    intro name
    obtain ⟨next, hnext, hlen, hdem⟩ := mangle_spec name id
    obtain ⟨s, hs, hd, hl⟩ := ih next
    exact ⟨s, by simp [mangleRounds, hnext, hs], hd.trans hdem, by omega⟩

/-- Rounds compose: `i + d` rounds are `i` rounds followed by `d` rounds. -/
theorem mangleRounds_add (id : Int) : ∀ (i d : Nat) (name : GoString),
    mangleRounds id (i + d) name = (mangleRounds id i name).bind (mangleRounds id d) := by
  intro i
  induction i with
  | zero => intro d name; simp [mangleRounds]
  | succ i ih =>
    intro d name
    have hidx : i + 1 + d = (i + d) + 1 := by omega
    rw [hidx]
    cases h : mangle name id with
    | none => simp [mangleRounds, h]
    | some next => simp [mangleRounds, h, ih]

/-- C12.  For every name, with or without a separator, every identifier and every number of
rounds `k` (in particular every `k ≥ 1`): `k` successive rounds of `mangle` return a name,
and `demangle` of it is `demangle` of the name the rounds started from. -/
theorem demangle_mangleRounds (name : GoString) (id : Int) (k : Nat) :
    ∃ s, mangleRounds id k name = some s ∧ demangle s = demangle name := by
  obtain ⟨s, hs, hd, _⟩ := mangleRounds_spec id k name
  exact ⟨s, hs, hd⟩

/-- C13.  For every name and identifier: `mangle` returns a name different from, and strictly
longer than, its argument; every number of rounds returns a name; and no two different
numbers of rounds give the same name. -/
theorem mangle_never_repeats (name : GoString) (id : Int) :
    (∃ s, mangle name id = some s ∧ s ≠ name ∧ name.length < s.length) ∧
    (∀ i, ∃ s, mangleRounds id i name = some s) ∧
    (∀ i j, i ≠ j → mangleRounds id i name ≠ mangleRounds id j name) := by
  refine ⟨?_, ?_, ?_⟩
  · obtain ⟨s, hs, hlen, _⟩ := mangle_spec name id
    exact ⟨s, hs, fun h => by rw [h] at hlen; omega, hlen⟩
  · intro i
    obtain ⟨s, hs, _⟩ := mangleRounds_spec id i name
    exact ⟨s, hs⟩
  · have key : ∀ i d, 0 < d → mangleRounds id i name ≠ mangleRounds id (i + d) name := by
      intro i d hd heq
      obtain ⟨s, hs, _, _⟩ := mangleRounds_spec id i name
      obtain ⟨t, ht, _, hlen⟩ := mangleRounds_spec id d s
      rw [mangleRounds_add, hs, Option.some_bind, ht] at heq
      have hst : s = t := Option.some.inj heq
      rw [← hst] at hlen
      omega
    intro i j hij
    rcases Nat.lt_or_gt_of_ne hij with h | h
    · have := key i (j - i) (by omega)
      rwa [show i + (j - i) = j by omega] at this
    · have := key j (i - j) (by omega)
      rw [show j + (i - j) = i by omega] at this
      exact fun heq => this heq.symm

theorem IndexRune_eq_indexOf {s : GoString} {r : Char} {i : Nat}
    (h : IndexRune s r = some i) : s.indexOf r = i := by
  induction s generalizing i with
  | nil => simp [IndexRune] at h
  | cons c cs ih =>
    by_cases hc : c = r
    · simp [IndexRune, hc] at h
      simp [List.indexOf_cons, hc, h]
    · simp only [IndexRune, hc, if_false, Option.map_eq_some'] at h
      obtain ⟨j, hj, rfl⟩ := h
      simp [List.indexOf_cons, hc, ih hj]

theorem int64_of_lt {id : Nat} (h : id < 2 ^ 63) : int64 id = (id : Int) := by
  have h1 : id % 2 ^ 64 = id := Nat.mod_eq_of_lt (by omega)
  unfold int64
  rw [h1, if_pos h]

theorem FormatInt_of_lt {id : Nat} (h : id < 2 ^ 63) :
    FormatInt (int64 id) = Nat.toDigits 10 id := by
  rw [int64_of_lt h]
  simp [FormatInt]

/-- C14.  For every name and every identifier that is non-negative as a signed 64-bit number,
with decimal digit string `d`: `mangle` returns, without an index out of range, exactly the
name of the two-case description; without a separator in the name that is the name, the
separator and the first digit of `d`, of length `len(name) + 2`; with a separator it has
length `len(name) + 1`. -/
theorem mangle_eq_reference (name : GoString) (id : Nat) (hid : id < 2 ^ 63) :
    mangle name (int64 id) = some (mangleReference name (Nat.toDigits 10 id)) ∧
    ('#' ∉ name →
      (∃ digit rest, Nat.toDigits 10 id = digit :: rest ∧
        mangleReference name (Nat.toDigits 10 id) = name ++ ['#', digit]) ∧
      (mangleReference name (Nat.toDigits 10 id)).length = name.length + 2) ∧
    ('#' ∈ name →
      (mangleReference name (Nat.toDigits 10 id)).length = name.length + 1) := by
  have hfmt := FormatInt_of_lt hid
  have hne := toDigits_ne_nil id
  cases hd : Nat.toDigits 10 id with
  | nil => exact absurd hd hne
  | cons digit rest =>
    cases h : IndexRune name '#' with
    | none =>
      have hmem : '#' ∉ name := IndexRune_eq_none.mp h
      have href : mangleReference name (digit :: rest) = name ++ ['#', digit] := by
        simp [mangleReference, hmem]
      refine ⟨?_, fun _ => ⟨⟨digit, rest, rfl, href⟩, by simp [href]⟩,
        fun hin => absurd hin hmem⟩
      simp [mangle, h, hfmt, hd, href]
    | some i =>
      obtain ⟨hlt, hpre, hsplit⟩ := IndexRune_eq_some h
      have hmem : '#' ∈ name := by
        rw [hsplit]
        simp
      have hidx := IndexRune_eq_indexOf h
      have hlen : (List.take (name.length - i)
          (digit :: rest ++ List.replicate (name.length - i - (digit :: rest).length) '#')).length
            = name.length - i := by
        simp only [List.length_take, List.length_append, List.length_replicate]
        omega
      have href : mangleReference name (digit :: rest) = name.take i ++ '#' ::
          (digit :: rest ++ List.replicate (name.length - i - (digit :: rest).length) '#').take
            (name.length - i) := by
        simp only [mangleReference, hmem, if_true, hidx]
      refine ⟨?_, fun hout => absurd hmem hout, fun _ => ?_⟩
      · have h1 : sliceTo name i = some (name.take i) := by simp [sliceTo]; omega
        have hpad : name.length - i ≤
            (padSeparators (digit :: rest) (name.length - i)).length := by
          simp [padSeparators]; omega
        have h2 : sliceTo (padSeparators (digit :: rest) (name.length - i)) (name.length - i) =
            some ((padSeparators (digit :: rest) (name.length - i)).take (name.length - i)) := by
          simp only [sliceTo, hpad, if_true]
        rw [href]
        simp only [mangle, h, hfmt, hd, h1, h2]
        rfl
      · rw [href, List.length_append, List.length_cons, hlen, List.length_take]
        omega

/-- The retry loop, counted in rounds: with at most `c` keys at least as long as the
candidate, the loop ends after `k ≤ c` rounds. -/
theorem collisionLoop_rounds (back : GoMap GoString Nat) (id : Int) :
    ∀ (c : Nat) (name : GoString), GoMap.longKeys back.entries name.length ≤ c →
    ∃ k r, k ≤ c ∧ mangleRounds id k name = some r ∧ back.contains r = false ∧
      (∀ j, j < k → ∃ s, mangleRounds id j name = some s ∧ back.contains s = true) ∧
      (∀ fuel, k < fuel → collisionLoop back id fuel name = some r) := by
  intro c
  induction c with
  | zero =>
    intro name hc
    cases hcont : back.contains name with
    | false =>
      refine ⟨0, name, Nat.le_refl 0, rfl, hcont, fun j hj => by omega, fun fuel hf => ?_⟩
      obtain ⟨f, rfl⟩ : ∃ f, fuel = f + 1 := ⟨fuel - 1, by omega⟩
      simp [collisionLoop, hcont]
    | true =>
      obtain ⟨s, _, hlen, _⟩ := mangle_spec name id
      have := GoMap.longKeys_lt_of_lookup back.entries name s.length hlen hcont
      omega
  | succ c ih =>
    intro name hc
    cases hcont : back.contains name with
    | false =>
      refine ⟨0, name, Nat.zero_le _, rfl, hcont, fun j hj => by omega, fun fuel hf => ?_⟩
      obtain ⟨f, rfl⟩ : ∃ f, fuel = f + 1 := ⟨fuel - 1, by omega⟩
      simp [collisionLoop, hcont]
    | true =>
      obtain ⟨s, hs, hlen, _⟩ := mangle_spec name id
      have hlt := GoMap.longKeys_lt_of_lookup back.entries name s.length hlen hcont
      obtain ⟨k, r, hk, hr, hfree, hbusy, hloop⟩ := ih s (by omega)
      refine ⟨k + 1, r, by omega, by simp [mangleRounds, hs, hr], hfree, ?_, ?_⟩
      · intro j hj
        cases j with
        | zero => exact ⟨name, rfl, hcont⟩
        | succ j =>
          obtain ⟨t, ht, hct⟩ := hbusy j (by omega)
          exact ⟨t, by simp [mangleRounds, hs, ht], hct⟩
      · intro fuel hf
        obtain ⟨f, rfl⟩ : ∃ f, fuel = f + 1 := ⟨fuel - 1, by omega⟩
        simp [collisionLoop, hcont, hs, hloop f (by omega)]

/-- C15.  For every backward map, identifier and ideal name, the retry loop of `updateUser`,
`updateNickMaps` and `updateChannelMaps` ends: there is a number of rounds `k`, at most the
number of entries of the backward map, such that the candidate after each of the first `k`
rounds' tests is a key, the candidate after `k` rounds is not, and the loop returns that
candidate whenever it has fuel for more than `k` tests, as it has in the three functions. -/
theorem collision_loop_terminates (back : GoMap GoString Nat) (id : Int) (ideal : GoString) :
    ∃ k r, k ≤ back.len ∧ mangleRounds id k ideal = some r ∧ back.contains r = false ∧
      (∀ j, j < k → ∃ s, mangleRounds id j ideal = some s ∧ back.contains s = true) ∧
      (∀ fuel, k < fuel → collisionLoop back id fuel ideal = some r) ∧
      collisionLoop back id (back.len + 1) ideal = some r := by
  obtain ⟨k, r, hk, hr, hfree, hbusy, hloop⟩ :=
    collisionLoop_rounds back id back.len ideal
      (GoMap.longKeys_le_length back.entries ideal.length)
  exact ⟨k, r, hk, hr, hfree, hbusy, hloop, hloop _ (by omega)⟩

/-! ## The claims: fallback, sanitizing, lookups, listeners -/

/-- C11.  On every registry, for every scope `g` and user `U` for which `NickName(g, U)`
returns a non-empty name `c` (so `U` is valid): `NickNameWithUserNameFallback(g, U)` returns
`(c, c)`, whatever the user maps hold, and it changes no stored entry and no lookup result of
any namespace. -/
theorem fallback_keeps_nickname (valid : Nat → Bool) (m : Map) (g U : Nat) (c : GoString)
    (h : NickName valid m g U = some c) (hc : c ≠ []) :
    ∃ m', NickNameWithUserNameFallback valid m g U = some (c, c, m') ∧
      SameEntries m m' ∧ SameLookups valid m m' := by
  have hs : (NickName valid m g U).isSome = true := by rw [h]; rfl
  have hvalid : valid U = true := by
    rw [NickName_eq] at h
    cases hv : valid U <;> simp [hv] at h ⊢
  have hget : ((nickForward m g).lookup U).getD [] = c := by
    have := NickName_of_isSome hs m
    rw [h] at this
    exact (Option.some.inj this).symm
  have hl : (nickForward m g).lookup U = some c := by
    cases hlk : (nickForward m g).lookup U with
    | none => rw [hlk] at hget; exact absurd hget.symm hc
    | some v => rw [hlk] at hget; exact congrArg some hget
  obtain ⟨m', hu, h1, h2, h3, h4, h5, h6⟩ :=
    @updateNick_noop m g U ((m.userf.lookup U).getD []) c true hl (Or.inl rfl)
  have hsame : SameEntries m m' :=
    ⟨h1, h2, h5, h6, fun g' => by simp [chanForward, h3], fun g' => by simp [chanBackward, h4]⟩
  refine ⟨m', ?_, hsame, hsame.sameLookups valid⟩
  simp [NickNameWithUserNameFallback, updateNickFromUserIfNotPresent, userName, hvalid, hu]

theorem sanitize_of_not_mem {name : GoString} (h : '#' ∉ name) : sanitize name = name := by
  unfold sanitize
  rw [List.filter_eq_self]
  intro c hc
  have : c ≠ '#' := fun e => h (e ▸ hc)
  simpa using this

theorem not_mem_sanitize (name : GoString) : '#' ∉ sanitize name := by
  unfold sanitize
  intro h
  have := (List.mem_filter.mp h).2
  simp at this

/-- Whatever the ideal name, `updateUser` returns the stored name as `before` and a current
name that demangles to `demangle ideal`. -/
theorem updateUser_outcome (m : Map) (id : Nat) (ideal : GoString) :
    ∃ current m', updateUser m id ideal = some ((m.userf.lookup id).getD [], current, m') ∧
      demangle current = demangle ideal ∧
      ('#' ∈ ideal → m.userb.contains ideal = false → current = ideal) := by
  rcases noop_or_fresh (m.userf.lookup id) ideal with ⟨cur, hl, hd⟩ | hfresh
  · have hsep : '#' ∉ ideal := hd ▸ not_mem_demangle cur
    refine ⟨cur, m, ?_, ?_, fun hin => absurd hin hsep⟩
    · rw [updateUser_noop hl hd, hl]; rfl
    · rw [demangle_of_not_mem hsep]; exact hd
  · obtain ⟨newName, hu, _, hdem, hsame, _⟩ := updateUser_fresh hfresh
    exact ⟨newName, _, hu, hdem, fun _ hfree => hsame hfree⟩

/-- Whatever the ideal name, `UpdateNick` returns the stored name as `before` and a current
name that demangles to `demangle ideal`. -/
theorem updateNick_outcome (m : Map) (g id : Nat) (ideal : GoString) :
    ∃ current m', updateNick m g id ideal false =
        some (((nickForward m g).lookup id).getD [], current, m') ∧
      demangle current = demangle ideal ∧
      ('#' ∈ ideal → (nickBackward m g).contains ideal = false → current = ideal) := by
  rcases noop_or_fresh ((nickForward m g).lookup id) ideal with ⟨cur, hl, hd⟩ | hfresh
  · have hsep : '#' ∉ ideal := hd ▸ not_mem_demangle cur
    obtain ⟨m', hu, _⟩ := @updateNick_noop m g id ideal cur false hl (Or.inr hd)
    refine ⟨cur, m', ?_, ?_, fun hin => absurd hin hsep⟩
    · rw [hu, hl]; rfl
    · rw [demangle_of_not_mem hsep]; exact hd
  · obtain ⟨newName, m', hu, _, hdem, hsame, _⟩ :=
      @updateNick_fresh m g id ideal false (fun cur hc => ⟨rfl, hfresh cur hc⟩)
    exact ⟨newName, m', hu, hdem, fun _ hfree => hsame hfree⟩

/-- Whatever the ideal name, `updateChannel` returns the stored name as `before` and a current
name that demangles to `demangle ideal`. -/
theorem updateChannel_outcome (m : Map) (g id : Nat) (ideal : GoString) :
    ∃ current m', updateChannel m g id ideal =
        some (((chanForward m g).lookup id).getD [], current, m') ∧
      demangle current = demangle ideal ∧
      ('#' ∈ ideal → (chanBackward m g).contains ideal = false → current = ideal) := by
  rcases noop_or_fresh ((chanForward m g).lookup id) ideal with ⟨cur, hl, hd⟩ | hfresh
  · have hsep : '#' ∉ ideal := hd ▸ not_mem_demangle cur
    obtain ⟨m', hu, _⟩ := updateChannel_noop hl hd
    refine ⟨cur, m', ?_, ?_, fun hin => absurd hin hsep⟩
    · rw [hu, hl]; rfl
    · rw [demangle_of_not_mem hsep]; exact hd
  · obtain ⟨newName, m', hu, _, hdem, hsame, _⟩ := updateChannel_fresh hfresh
    exact ⟨newName, m', hu, hdem, fun _ hfree => hsame hfree⟩

/-- The comparison of a call with the ideal name and a call with its sanitized form, from the
outcome of each: shared by the three update methods. -/
theorem compare_with_sanitized {before : GoString} {ideal c1 c2 : GoString} {m1 m2 : Map}
    {f : GoString → Option (GoString × GoString × Map)}
    (h1 : f ideal = some (before, c1, m1)) (h2 : f (sanitize ideal) = some (before, c2, m2))
    (hd1 : demangle c1 = demangle ideal) (hd2 : demangle c2 = demangle (sanitize ideal)) :
    demangle c2 = sanitize ideal ∧ ('#' ∉ ideal → c1 = c2 ∧ m1 = m2) ∧
      (demangle ideal ≠ sanitize ideal → c1 ≠ c2) := by
  have hs : demangle c2 = sanitize ideal := by
    rw [hd2, demangle_of_not_mem (not_mem_sanitize ideal)]
  refine ⟨hs, fun hsep => ?_, fun hne heq => ?_⟩
  · rw [sanitize_of_not_mem hsep, h1] at h2
    have h3 := Option.some.inj h2
    exact ⟨congrArg (fun r => r.2.1) h3, congrArg (fun r => r.2.2) h3⟩
  · apply hne
    rw [← hd1, heq, hs]

/-- C16, amended.  `UpdateUser`, `UpdateNick` and `UpdateChannel` use the ideal name as given
and do not sanitize it.  On every registry, for every identifier and ideal name, the call with
the ideal name and the call with `sanitize` of it both return, with the same `before`; the
current name of the first demangles to `demangle ideal`, the part before the first `'#'`,
and that of the second to `sanitize ideal`; an ideal name that holds a `'#'` and is not a key
of the backward map is stored as it is; the two calls return the same pair and the same
registry when the ideal name is separator-free; and they return different current names
whenever `demangle ideal` differs from `sanitize ideal`. -/
theorem update_uses_ideal_as_given (m : Map) (g id : Nat) (ideal : GoString) :
    (∃ before c1 m1 c2 m2,
      UpdateUser m id ideal = some (before, c1, m1) ∧
      UpdateUser m id (sanitize ideal) = some (before, c2, m2) ∧
      demangle c1 = demangle ideal ∧ demangle c2 = sanitize ideal ∧
      ('#' ∈ ideal → m.userb.contains ideal = false → c1 = ideal) ∧
      ('#' ∉ ideal → c1 = c2 ∧ m1 = m2) ∧
      (demangle ideal ≠ sanitize ideal → c1 ≠ c2)) ∧
    (∃ before c1 m1 c2 m2,
      UpdateNick m g id ideal = some (before, c1, m1) ∧
      UpdateNick m g id (sanitize ideal) = some (before, c2, m2) ∧
      demangle c1 = demangle ideal ∧ demangle c2 = sanitize ideal ∧
      ('#' ∈ ideal → (nickBackward m g).contains ideal = false → c1 = ideal) ∧
      ('#' ∉ ideal → c1 = c2 ∧ m1 = m2) ∧
      (demangle ideal ≠ sanitize ideal → c1 ≠ c2)) ∧
    (∃ before c1 m1 c2 m2,
      UpdateChannel m g id ideal = some (before, c1, m1) ∧
      UpdateChannel m g id (sanitize ideal) = some (before, c2, m2) ∧
      demangle c1 = demangle ideal ∧ demangle c2 = sanitize ideal ∧
      ('#' ∈ ideal → (chanBackward m g).contains ideal = false → c1 = ideal) ∧
      ('#' ∉ ideal → c1 = c2 ∧ m1 = m2) ∧
      (demangle ideal ≠ sanitize ideal → c1 ≠ c2)) := by
  refine ⟨?_, ?_, ?_⟩
  · obtain ⟨c1, m1, h1, hd1, hgiven⟩ := updateUser_outcome m id ideal
    obtain ⟨c2, m2, h2, hd2, _⟩ := updateUser_outcome m id (sanitize ideal)
    obtain ⟨hs, hsame, hdiff⟩ :=
      @compare_with_sanitized _ ideal c1 c2 m1 m2 (fun x => UpdateUser m id x) h1 h2 hd1 hd2
    exact ⟨_, c1, m1, c2, m2, h1, h2, hd1, hs, hgiven, hsame, hdiff⟩
  · obtain ⟨c1, m1, h1, hd1, hgiven⟩ := updateNick_outcome m g id ideal
    obtain ⟨c2, m2, h2, hd2, _⟩ := updateNick_outcome m g id (sanitize ideal)
    obtain ⟨hs, hsame, hdiff⟩ :=
      @compare_with_sanitized _ ideal c1 c2 m1 m2 (fun x => UpdateNick m g id x) h1 h2 hd1 hd2
    exact ⟨_, c1, m1, c2, m2, h1, h2, hd1, hs, hgiven, hsame, hdiff⟩
  · obtain ⟨c1, m1, h1, hd1, hgiven⟩ := updateChannel_outcome m g id ideal
    obtain ⟨c2, m2, h2, hd2, _⟩ := updateChannel_outcome m g id (sanitize ideal)
    obtain ⟨hs, hsame, hdiff⟩ :=
      @compare_with_sanitized _ ideal c1 c2 m1 m2 (fun x => UpdateChannel m g id x) h1 h2 hd1 hd2
    exact ⟨_, c1, m1, c2, m2, h1, h2, hd1, hs, hgiven, hsame, hdiff⟩

/-- C17.  Each lookup panics exactly on its documented precondition violation, for every
validity predicate: `UserName` iff the identifier is invalid, `UserID` iff the name is empty,
`NickName` and `ChannelName` iff the scope is neither valid nor zero or the identifier is
invalid, `NickID` and `ChannelID` iff the scope is neither valid nor zero or the name is
empty.  Otherwise the lookup returns the stored value, or the empty name or zero identifier
when the scope or the entry was never stored.  A lookup is a function of the registry and
returns no registry: it changes no state. -/
theorem lookups_fail_exactly_on_preconditions (valid : Nat → Bool) (m : Map) (g id : Nat)
    (name : GoString) :
    (UserName valid m id = none ↔ valid id = false) ∧
    (UserID m name = none ↔ name = []) ∧
    (NickName valid m g id = none ↔ ¬ (valid g = true ∨ g = 0) ∨ valid id = false) ∧
    (ChannelName valid m g id = none ↔ ¬ (valid g = true ∨ g = 0) ∨ valid id = false) ∧
    (NickID valid m g name = none ↔ ¬ (valid g = true ∨ g = 0) ∨ name = []) ∧
    (ChannelID valid m g name = none ↔ ¬ (valid g = true ∨ g = 0) ∨ name = []) ∧
    (valid id = true → UserName valid m id = some ((m.userf.lookup id).getD [])) ∧
    (name ≠ [] → UserID m name = some ((m.userb.lookup name).getD 0)) ∧
    ((valid g = true ∨ g = 0) → valid id = true →
      NickName valid m g id = some (((nickForward m g).lookup id).getD []) ∧
      ChannelName valid m g id = some (((chanForward m g).lookup id).getD []) ∧
      (m.nicksf.lookup g = none → NickName valid m g id = some []) ∧
      (m.chansf.lookup g = none → ChannelName valid m g id = some [])) ∧
    ((valid g = true ∨ g = 0) → name ≠ [] →
      NickID valid m g name = some (((nickBackward m g).lookup name).getD 0) ∧
      ChannelID valid m g name = some (((chanBackward m g).lookup name).getD 0) ∧
      (m.nicksb.lookup g = none → NickID valid m g name = some 0) ∧
      (m.chansb.lookup g = none → ChannelID valid m g name = some 0)) := by
  have hscope : (!valid g && g != 0) = true ↔ ¬ (valid g = true ∨ g = 0) := by
    cases hv : valid g <;> by_cases hg : g = 0 <;> simp [hv, hg]
  refine ⟨?_, ?_, ?_, ?_, ?_, ?_, ?_, ?_, ?_, ?_⟩
  · rw [UserName_eq]; cases hv : valid id <;> simp [hv]
  · rw [UserID_eq]; by_cases hn : name = [] <;> simp [hn]
  · rw [NickName_eq, ← hscope]
    cases hsc : (!valid g && g != 0) <;> cases hv : valid id <;> simp [hsc, hv]
  · rw [ChannelName_eq, ← hscope]
    cases hsc : (!valid g && g != 0) <;> cases hv : valid id <;> simp [hsc, hv]
  · rw [NickID_eq, ← hscope]
    cases hsc : (!valid g && g != 0) <;> by_cases hn : name = [] <;> simp [hsc, hn]
  · rw [ChannelID_eq, ← hscope]
    cases hsc : (!valid g && g != 0) <;> by_cases hn : name = [] <;> simp [hsc, hn]
  · intro hv; rw [UserName_eq]; simp [hv]
  · intro hn; rw [UserID_eq]; simp [hn]
  · intro hg hv
    have hsc : (!valid g && g != 0) = false := by
      cases h : (!valid g && g != 0)
      · rfl
      · exact absurd hg (hscope.mp h)
    refine ⟨?_, ?_, fun hnone => ?_, fun hnone => ?_⟩
    · rw [NickName_eq]; simp [hsc, hv]
    · rw [ChannelName_eq]; simp [hsc, hv]
    · rw [NickName_eq]; simp [hsc, hv, nickForward, hnone, GoMap.lookup_empty]
    · rw [ChannelName_eq]; simp [hsc, hv, chanForward, hnone, GoMap.lookup_empty]
  · intro hg hn
    have hsc : (!valid g && g != 0) = false := by
      cases h : (!valid g && g != 0)
      · rfl
      · exact absurd hg (hscope.mp h)
    refine ⟨?_, ?_, fun hnone => ?_, fun hnone => ?_⟩
    · rw [NickID_eq]; simp [hsc, hn]
    · rw [ChannelID_eq]; simp [hsc, hn]
    · rw [NickID_eq]; simp [hsc, hn, nickBackward, hnone, GoMap.lookup_empty]
    · rw [ChannelID_eq]; simp [hsc, hn, chanBackward, hnone, GoMap.lookup_empty]

/-- The address `listenTLS` computes: with a certificate file and a key file that are named
and load, port 0 gives `:6697` and a non-zero port `p` gives `:p`. -/
theorem listenTLS_address (loadX509KeyPair : GoString → GoString → Bool) (port : Int)
    (certfile keyfile : GoString) (hc : certfile ≠ []) (hk : keyfile ≠ [])
    (hl : loadX509KeyPair certfile keyfile = true) :
    listenTLS loadX509KeyPair 0 certfile keyfile = .ok [':', '6', '6', '9', '7'] ∧
    (port ≠ 0 → listenTLS loadX509KeyPair port certfile keyfile = .ok (':' :: FormatInt port)) := by
  refine ⟨?_, fun hp => ?_⟩
  · simp [listenTLS, hc, hk, hl]
    decide
  · simp [listenTLS, hc, hk, hl, hp]

/-! ## The claims: invariants of the reachable registries -/

/-- One `updateUser` returns and keeps the two user maps mutually inverse. -/
theorem updateUser_keeps_inverse {m : Map} (id : Nat) (ideal : GoString)
    (hinv : UserMapsInverse m) :
    ∃ before current m', updateUser m id ideal = some (before, current, m') ∧
      UserMapsInverse m' := by
  rcases noop_or_fresh (m.userf.lookup id) ideal with ⟨cur, hl, hd⟩ | hfresh
  · exact ⟨cur, cur, m, updateUser_noop hl hd, hinv⟩
  · obtain ⟨newName, hu, hfree, _, _, _⟩ := updateUser_fresh hfresh
    have hnone : m.userb.lookup newName = none := (GoMap.contains_eq_false_iff _ _).mp hfree
    refine ⟨_, newName, _, hu, ?_⟩
    intro x n
    cases hl : m.userf.lookup id with
    | none =>
      simp only [Option.isSome_none, Bool.false_eq_true, if_false, GoMap.lookup_store]
      by_cases hx : id = x
      · subst hx
        by_cases hn : newName = n
        · simp [hn]
        · have hno : ¬ m.userb.lookup n = some id := fun h => by
            rw [← hinv id n, hl] at h; cases h
          simp [hn, hno]
      · by_cases hn : newName = n
        · subst hn
          have hno : ¬ m.userf.lookup x = some newName := fun h => by
            rw [hinv x newName, hnone] at h; cases h
          have hx' : ¬ some id = some x := fun h => hx (Option.some.inj h)
          simp [hx, hno, hx']
        · simp [hx, hn, hinv x n]
    | some cur =>
      have hcur : m.userb.lookup cur = some id := (hinv id cur).mp hl
      have hcn : ¬ cur = newName := fun h => by rw [h, hnone] at hcur; cases hcur
      simp only [Option.isSome_some, if_true, Option.getD_some, GoMap.lookup_store,
        GoMap.lookup_delete]
      by_cases hx : id = x
      · subst hx
        by_cases hn : newName = n
        · subst hn
          simp [hcn]
        · by_cases hc : cur = n
          · simp [hn, hc]
          · have hno : ¬ m.userb.lookup n = some id := fun h => by
              rw [← hinv id n, hl] at h
              exact hc (Option.some.inj h)
            simp [hn, hc, hno]
      · by_cases hc : cur = n
        · subst hc
          have hno : ¬ m.userf.lookup x = some cur := fun h => by
            rw [hinv x cur, hcur] at h
            exact hx (Option.some.inj h)
          simp [hx, hno]
        · by_cases hn : newName = n
          · subst hn
            have hno : ¬ m.userf.lookup x = some newName := fun h => by
              rw [hinv x newName, hnone] at h; cases h
            have hx' : ¬ some id = some x := fun h => hx (Option.some.inj h)
            simp [hx, hc, hno, hx']
          · simp [hx, hc, hn, hinv x n]

/-- A sequence of `UpdateUser` calls returns and keeps the two user maps mutually inverse. -/
theorem runCalls_users_keep_inverse (valid : Nat → Bool) :
    ∀ (calls : List (Nat × GoString)) (m0 : Map), UserMapsInverse m0 →
    ∃ m, runCalls valid m0 (calls.map (fun c => Call.updateUser c.1 c.2)) = some m ∧
      UserMapsInverse m := by
  intro calls
  induction calls with
  | nil => intro m0 h; exact ⟨m0, rfl, h⟩
  | cons c rest ih =>
    intro m0 h
    obtain ⟨before, current, m1, hu, h1⟩ := updateUser_keeps_inverse c.1 c.2 h
    obtain ⟨m, hm, hinv⟩ := ih m1 h1
    exact ⟨m, by simp [runCalls, Call.run, UpdateUser, hu, hm], hinv⟩

/-- C21.  Every finite sequence of `UpdateUser` calls on `NewMap()`, with any identifiers and
any ideal names (the empty name and names with `'#'` included), returns, and in the registry
it reaches `userf` has the entry `id -> n` exactly when `userb` has the entry `n -> id`. -/
theorem user_updates_keep_maps_inverse (valid : Nat → Bool) (calls : List (Nat × GoString)) :
    ∃ m, runCalls valid NewMap (calls.map (fun c => Call.updateUser c.1 c.2)) = some m ∧
      ∀ id n, m.userf.lookup id = some n ↔ m.userb.lookup n = some id :=
  runCalls_users_keep_inverse valid calls NewMap (fun _ _ => by
    simp [NewMap, GoMap.lookup_empty])

/-- Storing a pair whose name is not yet a key keeps every forward entry backed. -/
theorem store_fresh_backed {f : GoMap Nat GoString} {b : GoMap GoString Nat} {u : Nat}
    {newName : GoString} (hfree : b.lookup newName = none)
    (hb : ∀ id n, f.lookup id = some n → b.lookup n = some id) :
    ∀ id n, (f.store u newName).lookup id = some n → (b.store newName u).lookup n = some id := by
  intro id n h
  rw [GoMap.lookup_store] at h ⊢
  by_cases hu : u = id
  · subst hu
    rw [if_pos rfl] at h
    have hn : newName = n := Option.some.inj h
    rw [if_pos hn]
  · rw [if_neg hu] at h
    have hbn := hb id n h
    have hn : ¬ newName = n := fun e => by rw [← e, hfree] at hbn; cases hbn
    rw [if_neg hn]
    exact hbn

/-- Storing a pair whose name is not yet a key keeps every backward entry as it was. -/
theorem store_fresh_kept {b : GoMap GoString Nat} {u : Nat} {newName : GoString}
    (hfree : b.lookup newName = none) :
    ∀ n id, b.lookup n = some id → (b.store newName u).lookup n = some id := by
  intro n id h
  rw [GoMap.lookup_store]
  have hn : ¬ newName = n := fun e => by rw [← e, hfree] at h; cases h
  rw [if_neg hn]
  exact h

/-- What `updateNick` does to the scopes, whatever `onlyIfNotPresent` is: the channel scopes
are as before, and the nickname scopes are as before or scope `g` gained one pair whose name
was not a key of its backward map. -/
theorem updateNick_scopes {m m' : Map} {g u : Nat} {ideal before current : GoString} {o : Bool}
    (h : updateNick m g u ideal o = some (before, current, m')) :
    (∀ g', chanForward m' g' = chanForward m g' ∧ chanBackward m' g' = chanBackward m g') ∧
    ((∀ g', nickForward m' g' = nickForward m g' ∧ nickBackward m' g' = nickBackward m g') ∨
      ∃ newName, (nickBackward m g).lookup newName = none ∧
        ∀ g', nickForward m' g' =
            (if g = g' then (nickForward m g).store u newName else nickForward m g') ∧
          nickBackward m' g' =
            (if g = g' then (nickBackward m g).store newName u else nickBackward m g')) := by
  by_cases hn : ∃ cur, (nickForward m g).lookup u = some cur ∧
      (o = true ∨ demangle cur = ideal)
  · obtain ⟨cur, hl, hc⟩ := hn
    obtain ⟨m1, hu, _, _, h3, h4, hf, hb⟩ := updateNick_noop hl hc
    rw [hu] at h
    have hm : m1 = m' := congrArg (fun r => r.2.2) (Option.some.inj h)
    subst hm
    exact ⟨fun g' => ⟨by simp [chanForward, h3], by simp [chanBackward, h4]⟩,
      Or.inl (fun g' => ⟨hf g', hb g'⟩)⟩
  · have hfresh : ∀ cur, (nickForward m g).lookup u = some cur →
        o = false ∧ demangle cur ≠ ideal := by
      intro cur hl
      constructor
      · cases ho : o with
        | false => rfl
        | true => exact absurd ⟨cur, hl, Or.inl ho⟩ hn
      · exact fun hd => hn ⟨cur, hl, Or.inr hd⟩
    obtain ⟨newName, m1, hu, hfree, _, _, _, _, _, h3, h4, hf, hb⟩ := updateNick_fresh hfresh
    rw [hu] at h
    have hm : m1 = m' := congrArg (fun r => r.2.2) (Option.some.inj h)
    subst hm
    exact ⟨fun g' => ⟨by simp [chanForward, h3], by simp [chanBackward, h4]⟩,
      Or.inr ⟨newName, (GoMap.contains_eq_false_iff _ _).mp hfree, fun g' => ⟨hf g', hb g'⟩⟩⟩

/-- What `updateChannel` does to the scopes: the nickname scopes are as before, and the
channel scopes are as before or scope `g` gained one pair whose name was not a key of its
backward map. -/
theorem updateChannel_scopes {m m' : Map} {g u : Nat} {ideal before current : GoString}
    (h : updateChannel m g u ideal = some (before, current, m')) :
    (∀ g', nickForward m' g' = nickForward m g' ∧ nickBackward m' g' = nickBackward m g') ∧
    ((∀ g', chanForward m' g' = chanForward m g' ∧ chanBackward m' g' = chanBackward m g') ∨
      ∃ newName, (chanBackward m g).lookup newName = none ∧
        ∀ g', chanForward m' g' =
            (if g = g' then (chanForward m g).store u newName else chanForward m g') ∧
          chanBackward m' g' =
            (if g = g' then (chanBackward m g).store newName u else chanBackward m g')) := by
  rcases noop_or_fresh ((chanForward m g).lookup u) ideal with ⟨cur, hl, hd⟩ | hfresh
  · obtain ⟨m1, hu, _, _, h3, h4, hf, hb⟩ := updateChannel_noop hl hd
    rw [hu] at h
    have hm : m1 = m' := congrArg (fun r => r.2.2) (Option.some.inj h)
    subst hm
    exact ⟨fun g' => ⟨by simp [nickForward, h3], by simp [nickBackward, h4]⟩,
      Or.inl (fun g' => ⟨hf g', hb g'⟩)⟩
  · obtain ⟨newName, m1, hu, hfree, _, _, _, _, _, h3, h4, hf, hb⟩ :=
      updateChannel_fresh hfresh
    rw [hu] at h
    have hm : m1 = m' := congrArg (fun r => r.2.2) (Option.some.inj h)
    subst hm
    exact ⟨fun g' => ⟨by simp [nickForward, h3], by simp [nickBackward, h4]⟩,
      Or.inr ⟨newName, (GoMap.contains_eq_false_iff _ _).mp hfree, fun g' => ⟨hf g', hb g'⟩⟩⟩

/-- What `updateUser` does to the scopes: nothing. -/
theorem updateUser_scopes {m m' : Map} {id : Nat} {ideal before current : GoString}
    (h : updateUser m id ideal = some (before, current, m')) :
    m'.nicksf = m.nicksf ∧ m'.nicksb = m.nicksb ∧ m'.chansf = m.chansf ∧
      m'.chansb = m.chansb := by
  rcases noop_or_fresh (m.userf.lookup id) ideal with ⟨cur, hl, hd⟩ | hfresh
  · rw [updateUser_noop hl hd] at h
    cases h
    exact ⟨rfl, rfl, rfl, rfl⟩
  · obtain ⟨newName, hu, _⟩ := updateUser_fresh hfresh
    rw [hu] at h
    cases h
    exact ⟨rfl, rfl, rfl, rfl⟩

/-- Scopes that are as before, or of which one gained a pair with a name that was not a key,
keep every forward entry backed and keep every backward entry. -/
theorem scopes_backed_and_kept {F F' : Nat → GoMap Nat GoString}
    {B B' : Nat → GoMap GoString Nat} {g u : Nat}
    (h : (∀ g', F' g' = F g' ∧ B' g' = B g') ∨
      ∃ newName, (B g).lookup newName = none ∧
        ∀ g', F' g' = (if g = g' then (F g).store u newName else F g') ∧
          B' g' = (if g = g' then (B g).store newName u else B g')) :
    ((∀ g' id n, (F g').lookup id = some n → (B g').lookup n = some id) →
      ∀ g' id n, (F' g').lookup id = some n → (B' g').lookup n = some id) ∧
    (∀ g' n id, (B g').lookup n = some id → (B' g').lookup n = some id) := by
  rcases h with hsame | ⟨newName, hfree, hnew⟩
  · refine ⟨fun hb g' id n hl => ?_, fun g' n id hl => ?_⟩
    · rw [(hsame g').1] at hl
      rw [(hsame g').2]
      exact hb g' id n hl
    · rw [(hsame g').2]
      exact hl
  · refine ⟨fun hb g' id n hl => ?_, fun g' n id hl => ?_⟩
    · rw [(hnew g').1] at hl
      rw [(hnew g').2]
      by_cases hg : g = g'
      · subst hg
        rw [if_pos rfl] at hl ⊢
        exact store_fresh_backed hfree (hb g) id n hl
      · rw [if_neg hg] at hl ⊢
        exact hb g' id n hl
    · rw [(hnew g').2]
      by_cases hg : g = g'
      · subst hg
        rw [if_pos rfl]
        exact store_fresh_kept hfree n id hl
      · rw [if_neg hg]
        exact hl

/-- One call keeps every forward entry of every scope backed, and keeps every backward entry
of every scope. -/
theorem run_call_scopes {valid : Nat → Bool} {m : Map} {c : Call}
    {r : GoString × GoString × Map} (h : c.run valid m = some r) :
    (ScopeEntriesBacked m → ScopeEntriesBacked r.2.2) ∧ ScopeBackwardKept m r.2.2 := by
  have hnick : ∀ {g u : Nat} {ideal : GoString} {o : Bool},
      updateNick m g u ideal o = some r →
      (ScopeEntriesBacked m → ScopeEntriesBacked r.2.2) ∧ ScopeBackwardKept m r.2.2 := by
    intro g u ideal o hu
    have hu' : updateNick m g u ideal o = some (r.1, r.2.1, r.2.2) := hu
    obtain ⟨hchan, hn⟩ := updateNick_scopes hu'
    obtain ⟨hback, hkept⟩ := scopes_backed_and_kept hn
    refine ⟨fun hinv g' id n => ⟨?_, ?_⟩, fun g' n id => ⟨hkept g' n id, ?_⟩⟩
    · exact hback (fun g2 id2 n2 => (hinv g2 id2 n2).1) g' id n
    · rw [(hchan g').1, (hchan g').2]
      exact (hinv g' id n).2
    · rw [(hchan g').2]
      exact fun hl => hl
  cases c with
  | updateUser userID ideal =>
    have hu : updateUser m userID ideal = some (r.1, r.2.1, r.2.2) := h
    obtain ⟨h1, h2, h3, h4⟩ := updateUser_scopes hu
    have e1 : ∀ g, nickForward r.2.2 g = nickForward m g := fun g => by simp [nickForward, h1]
    have e2 : ∀ g, nickBackward r.2.2 g = nickBackward m g := fun g => by
      simp [nickBackward, h2]
    have e3 : ∀ g, chanForward r.2.2 g = chanForward m g := fun g => by simp [chanForward, h3]
    have e4 : ∀ g, chanBackward r.2.2 g = chanBackward m g := fun g => by
      simp [chanBackward, h4]
    refine ⟨fun hinv g id n => ?_, fun g n id => ?_⟩
    · rw [e1, e2, e3, e4]
      exact hinv g id n
    · rw [e2, e4]
      exact ⟨fun hl => hl, fun hl => hl⟩
  | updateNick guildID userID ideal => exact hnick h
  | updateChannel guildID channelID ideal =>
    have hu : updateChannel m guildID channelID ideal = some (r.1, r.2.1, r.2.2) := h
    obtain ⟨hnk, hc⟩ := updateChannel_scopes hu
    obtain ⟨hback, hkept⟩ := scopes_backed_and_kept hc
    refine ⟨fun hinv g' id n => ⟨?_, ?_⟩, fun g' n id => ⟨?_, hkept g' n id⟩⟩
    · rw [(hnk g').1, (hnk g').2]
      exact (hinv g' id n).1
    · exact hback (fun g2 id2 n2 => (hinv g2 id2 n2).2) g' id n
    · rw [(hnk g').2]
      exact fun hl => hl
  | nickNameWithUserNameFallback guildID userID =>
    have hf : NickNameWithUserNameFallback valid m guildID userID = some r := h
    unfold NickNameWithUserNameFallback updateNickFromUserIfNotPresent at hf
    cases hname : userName valid m userID with
    | none => rw [hname] at hf; cases hf
    | some ideal =>
      rw [hname] at hf
      exact hnick hf

/-- A sequence of calls keeps every forward entry of every scope backed, and keeps every
backward entry of every scope. -/
theorem runCalls_scopes (valid : Nat → Bool) :
    ∀ (cs : List Call) (m m' : Map), runCalls valid m cs = some m' →
    (ScopeEntriesBacked m → ScopeEntriesBacked m') ∧ ScopeBackwardKept m m' := by
  intro cs
  induction cs with
  | nil =>
    intro m m' h
    have hm : m = m' := Option.some.inj h
    subst hm
    exact ⟨fun hinv => hinv, fun _ _ _ => ⟨fun hl => hl, fun hl => hl⟩⟩
  | cons c rest ih =>
    intro m m' h
    cases hc : c.run valid m with
    | none => simp [runCalls, hc] at h
    | some r =>
      have hrest : runCalls valid r.2.2 rest = some m' := by simpa [runCalls, hc] using h
      obtain ⟨hb1, hk1⟩ := run_call_scopes hc
      obtain ⟨hb2, hk2⟩ := ih r.2.2 m' hrest
      exact ⟨fun hinv => hb2 (hb1 hinv), fun g n id =>
        ⟨fun hl => (hk2 g n id).1 ((hk1 g n id).1 hl),
          fun hl => (hk2 g n id).2 ((hk1 g n id).2 hl)⟩⟩

/-- C22.  In every registry reachable from `NewMap()` by calls of the four update methods, for
every scope `g` and two distinct identifiers: when both have an entry in the forward map of
the nickname scope `g` the two names differ, and likewise in the channel scope `g`.  The
reason holds with it: every forward entry has its backward entry in the scope, and whatever
calls follow, a backward entry of the scope stays, with the same identifier. -/
theorem scope_names_never_shared (valid : Nat → Bool) (m : Map) (h : Reachable valid m)
    (g a b : Nat) (hab : a ≠ b) :
    (∀ na nb, (nickForward m g).lookup a = some na → (nickForward m g).lookup b = some nb →
      na ≠ nb) ∧
    (∀ na nb, (chanForward m g).lookup a = some na → (chanForward m g).lookup b = some nb →
      na ≠ nb) ∧
    (∀ id n, ((nickForward m g).lookup id = some n → (nickBackward m g).lookup n = some id) ∧
      ((chanForward m g).lookup id = some n → (chanBackward m g).lookup n = some id)) ∧
    (∀ cs m' id n, runCalls valid m cs = some m' →
      ((nickBackward m g).lookup n = some id → (nickBackward m' g).lookup n = some id) ∧
      ((chanBackward m g).lookup n = some id → (chanBackward m' g).lookup n = some id)) := by
  obtain ⟨cs0, hcs0⟩ := h
  have hnew : ScopeEntriesBacked NewMap := fun g id n =>
    ⟨fun hl => by simp [nickForward, NewMap, GoMap.lookup_empty] at hl,
      fun hl => by simp [chanForward, NewMap, GoMap.lookup_empty] at hl⟩
  have hinv : ScopeEntriesBacked m := (runCalls_scopes valid cs0 NewMap m hcs0).1 hnew
  refine ⟨fun na nb ha hb hn => ?_, fun na nb ha hb hn => ?_, fun id n => hinv g id n,
    fun cs m' id n hrun => (runCalls_scopes valid cs m m' hrun).2 g n id⟩
  · have h1 := (hinv g a na).1 ha
    have h2 := (hinv g b nb).1 hb
    rw [hn, h2] at h1
    exact hab (Option.some.inj h1).symm
  · have h1 := (hinv g a na).2 ha
    have h2 := (hinv g b nb).2 hb
    rw [hn, h2] at h1
    exact hab (Option.some.inj h1).symm

/-! ## The claims: evaluations of the code -/

/-- C1, failing input.  After a user is registered as `a`, a nickname `a` is registered and
renamed to `b` in scope 0, and a second user asks for `a`, the two distinct users 1 and 2 both
have the user name `a`: the nickname rename deleted the user entry `a` from `userb`. -/
theorem user_names_shared_after_nick_rename :
    ∃ m, runCalls positiveInt64 NewMap
        [.updateUser 1 ['a'], .updateNick 0 1 ['a'], .updateNick 0 1 ['b'],
          .updateUser 2 ['a']] = some m ∧
      UserName positiveInt64 m 1 = some ['a'] ∧ UserName positiveInt64 m 2 = some ['a'] :=
  ⟨_, rfl, by decide, by decide⟩

/-- C2, failing input.  After a nickname of user 1 is registered as `a` and renamed to `b` in
scope 0, the backward map still resolves `a` to user 1 while the forward map gives user 1 the
name `b`. -/
theorem nick_maps_disagree_after_rename :
    ∃ m, runCalls positiveInt64 NewMap [.updateNick 0 1 ['a'], .updateNick 0 1 ['b']] = some m ∧
      NickID positiveInt64 m 0 ['a'] = some 1 ∧ NickName positiveInt64 m 0 1 = some ['b'] :=
  ⟨_, rfl, by decide, by decide⟩

/-- C4, failing inputs.  Removing the nickname `bob` of user 1 returns `(bob, "")` but leaves
`NickID(bob) = 1`; and removing user 2, named `b`, after user 1 was removed, returns
`(b, "#2")` and leaves user 2 with the name `#2`. -/
theorem removal_leaves_entries :
    (∃ m m', runCalls positiveInt64 NewMap [.updateNick 0 1 ['b', 'o', 'b']] = some m ∧
      UpdateNick m 0 1 [] = some (['b', 'o', 'b'], [], m') ∧
      NickName positiveInt64 m' 0 1 = some [] ∧
      NickID positiveInt64 m' 0 ['b', 'o', 'b'] = some 1) ∧
    (∃ m m', runCalls positiveInt64 NewMap
        [.updateUser 1 ['a'], .updateUser 1 [], .updateUser 2 ['b']] = some m ∧
      UserName positiveInt64 m 2 = some ['b'] ∧
      UpdateUser m 2 [] = some (['b'], ['#', '2'], m') ∧
      UserName positiveInt64 m' 2 = some ['#', '2']) :=
  ⟨⟨_, _, rfl, rfl, by decide, by decide⟩, ⟨_, _, rfl, by decide, rfl, by decide⟩⟩

/-- C5, failing input.  Renaming channel 1 of scope 0 from `a` to `b` returns `(a, b)`, and
afterwards `ChannelID(0, a)` is still channel 1. -/
theorem channel_rename_keeps_old_name :
    ∃ m m', runCalls positiveInt64 NewMap [.updateChannel 0 1 ['a']] = some m ∧
      UpdateChannel m 0 1 ['b'] = some (['a'], ['b'], m') ∧
      ChannelID positiveInt64 m' 0 ['a'] = some 1 :=
  ⟨_, _, rfl, rfl, by decide⟩

/-- C9, failing input.  With user 1 registered as `a` and the nickname of user 2 in scope 0
also `a`, renaming that nickname to `b` changes the user lookup `UserID(a)` from 1 to 0. -/
theorem nick_rename_changes_user_lookup :
    ∃ m m', runCalls positiveInt64 NewMap [.updateUser 1 ['a'], .updateNick 0 2 ['a']] = some m ∧
      UpdateNick m 0 2 ['b'] = some (['a'], ['b'], m') ∧
      UserID m ['a'] = some 1 ∧ UserID m' ['a'] = some 0 :=
  ⟨_, _, rfl, rfl, by decide, by decide⟩

/-- C6, failing input.  In scope 0 the nickname of user 1 goes from `a` to `b`.  Then
`NickID(0, a)` is user 1 itself, no other identifier holds `a`, and the current name `b` does
not demangle to `a`; yet `UpdateNick(0, 1, a)` returns the mangled `a#1`, because the rename
left the entry `a -> 1` in `nicksb`.  The same three calls through `UpdateUser` free `a` at
the rename (`UserID(a)` is the zero identifier) and return `(b, a)`. -/
theorem own_old_nickname_is_mangled :
    (∃ m m', runCalls positiveInt64 NewMap [.updateNick 0 1 ['a'], .updateNick 0 1 ['b']] = some m ∧
      NickID positiveInt64 m 0 ['a'] = some 1 ∧ NickName positiveInt64 m 0 1 = some ['b'] ∧
      demangle ['b'] ≠ ['a'] ∧
      UpdateNick m 0 1 ['a'] = some (['b'], ['a', '#', '1'], m')) ∧
    (∃ m m', runCalls positiveInt64 NewMap [.updateUser 1 ['a'], .updateUser 1 ['b']] = some m ∧
      UserID m ['a'] = some 0 ∧ UserName positiveInt64 m 1 = some ['b'] ∧
      UpdateUser m 1 ['a'] = some (['b'], ['a'], m')) :=
  ⟨⟨_, _, rfl, by decide, by decide, by decide, rfl⟩, ⟨_, _, rfl, by decide, by decide, rfl⟩⟩

/-- C7, counterexample.  With the name `a#`, which holds a separator, the first update of
user 1 gives it the name `a#`, and the same update again returns `(a#, a#1)` and changes what
`UserName(1)` returns. -/
theorem update_twice_with_separator_renames :
    ∃ m1 m2, UpdateUser NewMap 1 ['a', '#'] = some ([], ['a', '#'], m1) ∧
      UpdateUser m1 1 ['a', '#'] = some (['a', '#'], ['a', '#', '1'], m2) ∧
      UserName positiveInt64 m1 1 = some ['a', '#'] ∧
      UserName positiveInt64 m2 1 = some ['a', '#', '1'] :=
  ⟨_, _, rfl, rfl, by decide, by decide⟩

/-- C16, counterexample.  The name `a#` sanitizes to `a`; on `NewMap()` the update of user 1
with `a#` returns the current name `a#`, the update with the sanitized name returns `a`. -/
theorem update_does_not_sanitize :
    sanitize ['a', '#'] = ['a'] ∧
    ∃ m1 m2, UpdateUser NewMap 1 ['a', '#'] = some ([], ['a', '#'], m1) ∧
      UpdateUser NewMap 1 (sanitize ['a', '#']) = some ([], ['a'], m2) ∧
      UserName positiveInt64 m1 1 ≠ UserName positiveInt64 m2 1 :=
  ⟨by decide, _, _, rfl, rfl, by decide⟩

/-- C18.  The end-to-end scenario on `NewMap()`: `UpdateUser(100, eve)` returns `("", eve)`,
`UpdateUser(200, eve)` returns `("", eve#2)`, `UpdateUser(100, eve)` returns `(eve, eve)`,
`UpdateUser(200, "")` returns `(eve#2, "")`, and afterwards `UserID(eve#2)` is the zero
identifier. -/
theorem end_to_end_scenario :
    ∃ m1 m2 m3 m4,
      UpdateUser NewMap 100 ['e', 'v', 'e'] = some ([], ['e', 'v', 'e'], m1) ∧
      UpdateUser m1 200 ['e', 'v', 'e'] = some ([], ['e', 'v', 'e', '#', '2'], m2) ∧
      UpdateUser m2 100 ['e', 'v', 'e'] = some (['e', 'v', 'e'], ['e', 'v', 'e'], m3) ∧
      UpdateUser m3 200 [] = some (['e', 'v', 'e', '#', '2'], [], m4) ∧
      UserID m4 ['e', 'v', 'e', '#', '2'] = some 0 :=
  ⟨_, _, _, _, rfl, rfl, rfl, rfl, by decide⟩

/-- C19, failing input.  With a certificate and key that load, `listenTLS` with port 0 passes
`:6697` to the TLS listener, not the `:6667` its doc comment states; `:6667` is what the plain
`listen` passes. -/
theorem listenTLS_default_is_not_6667 :
    listenTLS (fun _ _ => true) 0 ['c'] ['k'] = .ok [':', '6', '6', '9', '7'] ∧
    listenTLS (fun _ _ => true) 0 ['c'] ['k'] ≠ .ok [':', '6', '6', '6', '7'] ∧
    listen 0 = [':', '6', '6', '6', '7'] :=
  ⟨rfl, fun h => by
    have h2 : listenTLS (fun _ _ => true) 0 ['c'] ['k'] = .ok [':', '6', '6', '9', '7'] := rfl
    rw [h2] at h
    exact absurd (Except.ok.inj h) (by decide), by decide⟩

/-- C20, failing input.  User 1 takes the nickname `carl` in scope 0, removes it with the empty
ideal name, and registers the user name `bob`.  Then `NickName(0, 1)` is empty and
`UserName(1)` is `bob`, yet the fallback returns `("", "")` and leaves the nickname empty: the
removal left an entry with the empty name in the forward map. -/
theorem fallback_after_removal_seeds_nothing :
    ∃ m m', runCalls positiveInt64 NewMap
        [.updateNick 0 1 ['c', 'a', 'r', 'l'], .updateNick 0 1 [],
          .updateUser 1 ['b', 'o', 'b']] = some m ∧
      NickName positiveInt64 m 0 1 = some [] ∧
      UserName positiveInt64 m 1 = some ['b', 'o', 'b'] ∧
      NickNameWithUserNameFallback positiveInt64 m 0 1 = some ([], [], m') ∧
      NickName positiveInt64 m' 0 1 = some [] :=
  ⟨_, _, rfl, by decide, by decide, rfl, by decide⟩

/-! ## The claims at concrete inputs -/

/-- C3 at a concrete input: in `bobRegistry`, renaming the nickname of user 1 in scope 0 to
`carl`. -/
theorem update_returns_before_and_current_witness :
    '#' ∉ ['c', 'a', 'r', 'l'] ∧
    ∃ before current m',
      UpdateNick bobRegistry 0 1 ['c', 'a', 'r', 'l'] = some (before, current, m') ∧
      (NickName positiveInt64 bobRegistry 0 1 = some before ∧
        NickName positiveInt64 m' 0 1 = some current) ∧
      demangle current = ['c', 'a', 'r', 'l'] :=
  ⟨by decide, by
    obtain ⟨before, current, m', hu, hl, hd⟩ :=
      (update_returns_before_and_current positiveInt64 bobRegistry 0 1 ['c', 'a', 'r', 'l']
        (by decide)).2.1
    exact ⟨before, current, m', hu, hl (by decide), hd⟩⟩

/-- C7 (amended) at a concrete input: user 1 registers `bob` twice on `NewMap()`. -/
theorem update_twice_is_noop_witness :
    '#' ∉ ['b', 'o', 'b'] ∧
    ∃ before x' m1, UpdateUser NewMap 1 ['b', 'o', 'b'] = some (before, x', m1) ∧
      ∃ m2, UpdateUser m1 1 ['b', 'o', 'b'] = some (x', x', m2) ∧
        SameEntries m1 m2 ∧ SameLookups positiveInt64 m1 m2 :=
  ⟨by decide,
    (update_twice_is_noop positiveInt64 NewMap 0 1 ['b', 'o', 'b'] (by decide)).1⟩

/-- C8 at a concrete input: in `bobRegistry`, where user 1 holds `bob`, user 2 asks for
`bob`. -/
theorem collision_preserves_loser_witness :
    positiveInt64 0 = false ∧ '#' ∉ ['b', 'o', 'b'] ∧ 2 ≠ 1 ∧
    UserName positiveInt64 bobRegistry 1 = some ['b', 'o', 'b'] ∧
    UserID bobRegistry ['b', 'o', 'b'] = some 1 ∧
    bobRegistry.userf.lookup 2 = none ∧
    ∃ before current m', UpdateUser bobRegistry 2 ['b', 'o', 'b'] = some (before, current, m') ∧
      current ≠ ['b', 'o', 'b'] ∧ demangle current = ['b', 'o', 'b'] ∧
      UserName positiveInt64 m' 1 = some ['b', 'o', 'b'] ∧
      UserID m' ['b', 'o', 'b'] = some 1 :=
  ⟨by decide, by decide, by decide, by decide, by decide, by decide,
    (collision_preserves_loser positiveInt64 (by decide) bobRegistry 0 1 2 ['b', 'o', 'b']
      (by decide) (by decide)).1 (by decide) (by decide) (fun cur h => by
        have hb : bobRegistry.userf.lookup 2 = none := by decide
        rw [hb] at h
        cases h)⟩

/-- C10 at a concrete input: in `bobRegistry`, an update of the nickname of user 1 in scope 0
against the lookups of scope 1, and `bob` registered in scopes 0 and 1 on `NewMap()`. -/
theorem scopes_are_independent_witness :
    (0 : Nat) ≠ 1 ∧
    (∃ before current m',
      UpdateNick bobRegistry 0 1 ['c', 'a', 'r', 'l'] = some (before, current, m') ∧
      (∀ u, NickName positiveInt64 m' 1 u = NickName positiveInt64 bobRegistry 1 u) ∧
      (∀ name, NickID positiveInt64 m' 1 name = NickID positiveInt64 bobRegistry 1 name)) ∧
    (∃ m1 m2, UpdateNick NewMap 0 1 ['b', 'o', 'b'] = some ([], ['b', 'o', 'b'], m1) ∧
      UpdateNick m1 1 2 ['b', 'o', 'b'] = some ([], ['b', 'o', 'b'], m2)) :=
  ⟨by decide,
    (scopes_are_independent positiveInt64 bobRegistry 0 1 1 ['c', 'a', 'r', 'l']
      (by decide)).1,
    (scopes_are_independent positiveInt64 bobRegistry 0 1 1 ['c', 'a', 'r', 'l']
      (by decide)).2.2 1 2⟩

/-- C11 at a concrete input: in `carlRegistry` user 1 has the nickname `carl` in scope 0 and
the user name `caroline`. -/
theorem fallback_keeps_nickname_witness :
    NickName positiveInt64 carlRegistry 0 1 = some ['c', 'a', 'r', 'l'] ∧
    ['c', 'a', 'r', 'l'] ≠ [] ∧
    UserName positiveInt64 carlRegistry 1 = some ['c', 'a', 'r', 'o', 'l', 'i', 'n', 'e'] ∧
    ∃ m', NickNameWithUserNameFallback positiveInt64 carlRegistry 0 1 =
        some (['c', 'a', 'r', 'l'], ['c', 'a', 'r', 'l'], m') ∧
      SameEntries carlRegistry m' ∧ SameLookups positiveInt64 carlRegistry m' :=
  ⟨by decide, by decide, by decide,
    fallback_keeps_nickname positiveInt64 carlRegistry 0 1 ['c', 'a', 'r', 'l'] (by decide)
      (by decide)⟩

/-- C14 at a concrete input: the name `eve` and the identifier 200, of digit string `200`. -/
theorem mangle_eq_reference_witness :
    200 < 2 ^ 63 ∧ Nat.toDigits 10 200 = ['2', '0', '0'] ∧
    mangleReference ['e', 'v', 'e'] (Nat.toDigits 10 200) = ['e', 'v', 'e', '#', '2'] ∧
    mangle ['e', 'v', 'e'] (int64 200) =
      some (mangleReference ['e', 'v', 'e'] (Nat.toDigits 10 200)) :=
  ⟨by decide, by decide, by decide,
    (mangle_eq_reference ['e', 'v', 'e'] 200 (by decide)).1⟩

/-- C16 (amended) at a concrete input: user 1 asks for `a#b` on `NewMap()`; `a#b` demangles to
`a` and sanitizes to `ab`, it is stored as given, and the call with the sanitized name returns
another current name. -/
theorem update_uses_ideal_as_given_witness :
    demangle ['a', '#', 'b'] = ['a'] ∧ sanitize ['a', '#', 'b'] = ['a', 'b'] ∧
    ∃ before c1 m1 c2 m2,
      UpdateUser NewMap 1 ['a', '#', 'b'] = some (before, c1, m1) ∧
      UpdateUser NewMap 1 (sanitize ['a', '#', 'b']) = some (before, c2, m2) ∧
      c1 = ['a', '#', 'b'] ∧ c1 ≠ c2 :=
  ⟨by decide, by decide, by
    obtain ⟨before, c1, m1, c2, m2, h1, h2, _, _, hgiven, _, hdiff⟩ :=
      (update_uses_ideal_as_given NewMap 0 1 ['a', '#', 'b']).1
    exact ⟨before, c1, m1, c2, m2, h1, h2, hgiven (by decide) (by decide),
      hdiff (by decide)⟩⟩

/-- C22 at a concrete input: in `twoBobsRegistry`, reached by four calls, users 1 and 2 both
asked for the nickname `bob` in scope 0; they hold `bob` and `bob#2`. -/
theorem scope_names_never_shared_witness :
    Reachable positiveInt64 twoBobsRegistry ∧ (1 : Nat) ≠ 2 ∧
    (nickForward twoBobsRegistry 0).lookup 1 = some ['b', 'o', 'b'] ∧
    (nickForward twoBobsRegistry 0).lookup 2 = some ['b', 'o', 'b', '#', '2'] ∧
    (['b', 'o', 'b'] : GoString) ≠ ['b', 'o', 'b', '#', '2'] :=
  ⟨⟨[.updateNick 0 1 ['b', 'o', 'b'], .updateNick 0 2 ['b', 'o', 'b'],
      .updateChannel 0 1 ['b', 'o', 'b'], .updateChannel 0 2 ['b', 'o', 'b']], rfl⟩,
    by decide, by decide, by decide,
    (scope_names_never_shared positiveInt64 twoBobsRegistry
      ⟨[.updateNick 0 1 ['b', 'o', 'b'], .updateNick 0 2 ['b', 'o', 'b'],
        .updateChannel 0 1 ['b', 'o', 'b'], .updateChannel 0 2 ['b', 'o', 'b']], rfl⟩
      0 1 2 (by decide)).1 _ _ (by decide) (by decide)⟩

end Names
